import Mathlib

/-!
Verification of the mdfh-distrib market-data ingestion core.

Shallow embedding of the C++ sources:

* `src/ring_buffer.cpp` — the SPSC `RingBuffer`;
* `src/ingestion.cpp` — `IngestionStats` and `MessageParser`;
* `src/multi_feed_ingestion.cpp` — `FeedMonitor`;
* `src/kernel_bypass.cpp` — the pending-packet pool of `BypassIngestionClient`.

Machine integers are modelled as `Nat` with explicit reduction modulo
`2 ^ 64` (`std::uint64_t` / `std::size_t`) and `2 ^ 32` (`std::uint32_t`)
at exactly the operations where the C++ performs modular arithmetic.
Stateful methods become explicit state-passing functions; functions that
throw become `Except`-valued.
-/

namespace MDFH

/-- `2 ^ 64`, the modulus of `std::uint64_t` arithmetic. -/
def U64 : Nat := 2 ^ 64

/-- `2 ^ 32`, the modulus of `std::uint32_t` arithmetic. -/
def U32 : Nat := 2 ^ 32

/-- Unsigned 64-bit subtraction `a - b` of representatives `a b < U64`,
wrapping modulo `2 ^ 64` exactly as C++ unsigned arithmetic does. -/
def usub (a b : Nat) : Nat := (a + U64 - b) % U64

/-- Unsigned 64-bit addition. -/
def uadd (a b : Nat) : Nat := (a + b) % U64

theorem usub_lt (a b : Nat) : usub a b < U64 := by
  have : 0 < U64 := by norm_num [U64]
  exact Nat.mod_lt _ this

theorem uadd_lt (a b : Nat) : uadd a b < U64 := by
  have : 0 < U64 := by norm_num [U64]
  exact Nat.mod_lt _ this

theorem usub_of_le (a b : Nat) (ha : a < U64) (hb : b ≤ a) : usub a b = a - b := by
  simp only [usub, U64] at *
  omega

theorem usub_eq_zero_iff (a b : Nat) (ha : a < U64) (hb : b < U64) :
    usub a b = 0 ↔ a = b := by
  simp only [usub, U64] at *
  omega

theorem usub_uadd_left (a b k : Nat) (hb : b < U64) :
    usub (uadd a k) b = (usub a b + k) % U64 := by
  simp only [usub, uadd, U64] at *
  omega

theorem usub_uadd_right (a b k : Nat) (ha : a < U64) (hb : b < U64) (hk : k < U64)
    (h : k ≤ usub a b) : usub a (uadd b k) = usub a b - k := by
  simp only [usub, uadd, U64] at *
  omega

theorem uadd_uadd (a j k : Nat) : uadd (uadd a j) k = uadd a (j + k) := by
  simp only [uadd, U64]
  omega

/-! ## Ring buffer (`src/ring_buffer.cpp`)

`mdfh::RingBuffer` is embedded with its element type as a parameter: the
C++ stores concrete `Slot` values, but no ring operation inspects the
payload, and the parser claims instantiate the payload with a record/
timestamp pair.  `write_pos`, `read_pos` and `high_water_mark` are
`std::uint64_t` counters; `slots` is the backing vector of length
`capacity`; `mask` caches `capacity - 1`. -/

structure RingBuffer (α : Type) where
  capacity : Nat
  mask : Nat
  slots : List α
  write_pos : Nat
  read_pos : Nat
  high_water_mark : Nat
deriving DecidableEq

/-- `mdfh::is_power_of_two` (include/mdfh/core.hpp):
`value > 0 && (value & (value - 1)) == 0`. -/
def is_power_of_two (value : Nat) : Bool :=
  decide (0 < value) && decide (value &&& (value - 1) = 0)

/-- `RingBuffer::validate_capacity` (src/ring_buffer.cpp): throws
`std::invalid_argument` for a zero, non-power-of-two, or > `2^32` capacity. -/
def RingBuffer.validate_capacity (capacity : Nat) : Except String Unit :=
  if capacity = 0 then
    .error "Ring buffer capacity cannot be zero"
  else if !is_power_of_two capacity then
    .error "Ring buffer capacity must be power of 2"
  else if capacity > 2 ^ 32 then
    .error "Ring buffer capacity too large (max 2^32)"
  else
    .ok ()

/-- The `RingBuffer` constructor: member initializers set `capacity_` and
`mask_ = capacity - 1`, then `validate_capacity` may throw, then
`slots_.resize(capacity)` default-initializes the cells; the atomic
position counters are zero-initialized in the class definition
(include/mdfh/ring_buffer.hpp). -/
def RingBuffer.construct (α : Type) [Inhabited α] (capacity : Nat) :
    Except String (RingBuffer α) :=
  match RingBuffer.validate_capacity capacity with
  | .error e => .error e
  | .ok _ => .ok { capacity := capacity, mask := capacity - 1,
                   slots := List.replicate capacity default,
                   write_pos := 0, read_pos := 0, high_water_mark := 0 }

/-- `RingBuffer::size`: the unsigned 64-bit difference `write_pos - read_pos`. -/
def RingBuffer.size (st : RingBuffer α) : Nat :=
  usub st.write_pos st.read_pos

/-- `RingBuffer::try_push` (src/ring_buffer.cpp lines 86-106). -/
def RingBuffer.try_push (st : RingBuffer α) (slot : α) : Bool × RingBuffer α :=
  let write := st.write_pos
  let read := st.read_pos
  if usub write read ≥ st.capacity then
    (false, st)
  else
    let slots := st.slots.set (write &&& st.mask) slot
    let write1 := uadd write 1
    let current_size := usub write1 read
    let hwm := if current_size > st.high_water_mark then current_size
               else st.high_water_mark
    (true, { st with slots := slots, write_pos := write1, high_water_mark := hwm })

/-- `RingBuffer::try_pop` (src/ring_buffer.cpp lines 108-121).  The C++
writes the popped slot through an out-parameter and returns `bool`; the
embedding returns `Option α` together with the new state. -/
def RingBuffer.try_pop [Inhabited α] (st : RingBuffer α) : Option α × RingBuffer α :=
  let read := st.read_pos
  let write := st.write_pos
  if read = write then
    (none, st)
  else
    let slot := st.slots.getD (read &&& st.mask) default
    (some slot, { st with read_pos := uadd read 1 })

/-- `RingBuffer::try_push_with_prefetch`: identical to `try_push` except for
the `PREFETCH_WRITE` cache hint, which has no effect on state. -/
def RingBuffer.try_push_with_prefetch (st : RingBuffer α) (slot : α) :
    Bool × RingBuffer α :=
  st.try_push slot

/-- `RingBuffer::try_pop_with_prefetch`: identical to `try_pop` except for
the `PREFETCH_READ` cache hint, which has no effect on state. -/
def RingBuffer.try_pop_with_prefetch [Inhabited α] (st : RingBuffer α) :
    Option α × RingBuffer α :=
  st.try_pop

/-- The copy loop of `try_push_bulk`:
`for i in [0, to_push): slots_[(write + i) & mask_] = slots[i]`. -/
def RingBuffer.write_loop (slots : List α) (mask write : Nat) (xs : List α) : List α :=
  match xs with
  | [] => slots
  | x :: rest => RingBuffer.write_loop (slots.set (write &&& mask) x) mask (uadd write 1) rest

/-- `RingBuffer::try_push_bulk` (src/ring_buffer.cpp lines 156-185).  The
C++ takes a pointer and a count; the embedding takes the list of the first
`count` source slots (`count == 0` and `slots == nullptr` both become `[]`). -/
def RingBuffer.try_push_bulk (st : RingBuffer α) (xs : List α) : Nat × RingBuffer α :=
  match xs with
  | [] => (0, st)
  | _ :: _ =>
    let write := st.write_pos
    let read := st.read_pos
    let available_space := usub st.capacity (usub write read)
    let to_push := min xs.length available_space
    if to_push = 0 then
      (0, st)
    else
      let slots := RingBuffer.write_loop st.slots st.mask write (xs.take to_push)
      let write1 := uadd write to_push
      let current_size := usub write1 read
      let hwm := if current_size > st.high_water_mark then current_size
                 else st.high_water_mark
      (to_push, { st with slots := slots, write_pos := write1, high_water_mark := hwm })

/-- The copy loop of `try_pop_bulk`:
`for i in [0, to_pop): slots[i] = slots_[(read + i) & mask_]`. -/
def RingBuffer.read_loop [Inhabited α] (slots : List α) (mask read n : Nat) : List α :=
  match n with
  | 0 => []
  | k + 1 => slots.getD (read &&& mask) default ::
             RingBuffer.read_loop slots mask (uadd read 1) k

/-- `RingBuffer::try_pop_bulk` (src/ring_buffer.cpp lines 187-210).  The C++
fills an out-array and returns the count; the embedding returns the list of
popped slots (its length is the returned count). -/
def RingBuffer.try_pop_bulk [Inhabited α] (st : RingBuffer α) (max_count : Nat) :
    List α × RingBuffer α :=
  if max_count = 0 then
    ([], st)
  else
    let read := st.read_pos
    let write := st.write_pos
    let available_items := usub write read
    let to_pop := min max_count available_items
    if to_pop = 0 then
      ([], st)
    else
      (RingBuffer.read_loop st.slots st.mask read to_pop,
       { st with read_pos := uadd read to_pop })

/-- `RingBuffer::advance_write_pos` (src/ring_buffer.cpp lines 133-154):
throws when the advance would exceed capacity, otherwise publishes the new
write position and updates the high-water mark. -/
def RingBuffer.advance_write_pos (st : RingBuffer α) (count : Nat) :
    Except String (RingBuffer α) :=
  if count = 0 then .ok st
  else
    let new_write := uadd st.write_pos count
    let read := st.read_pos
    if usub new_write read > st.capacity then
      .error "Cannot advance write position beyond capacity"
    else
      let current_size := usub new_write read
      let hwm := if current_size > st.high_water_mark then current_size
                 else st.high_water_mark
      .ok { st with write_pos := new_write, high_water_mark := hwm }

/-- `RingBuffer::BackPressureMode`. -/
inductive BackPressureMode where
  | DROP
  | BLOCK
deriving DecidableEq

/-- `RingBuffer::try_push_or_block` (src/ring_buffer.cpp lines 257-282).
`DROP` returns `try_push_with_prefetch`'s result.  `BLOCK` busy-retries
`try_push_with_prefetch` with yields until success or timeout; since a
failed try leaves the state unchanged, the cumulative state effect of the
retry loop in a sequential model is exactly one `try_push_with_prefetch`
outcome (success, or timeout with the state unchanged). -/
def RingBuffer.try_push_or_block (st : RingBuffer α) (slot : α)
    (mode : BackPressureMode) : Bool × RingBuffer α :=
  match mode with
  | .DROP => st.try_push_with_prefetch slot
  | .BLOCK => st.try_push_with_prefetch slot

/-- The well-formedness established by the constructor together with the
size invariant of the ring: positions are `u64` representatives, the
capacity is a power of two of at most `2^32`, `mask = capacity - 1`, the
backing vector has `capacity` cells, and the unsigned 64-bit size
`write_pos - read_pos` never exceeds `capacity`. -/
def RingBuffer.Inv (st : RingBuffer α) : Prop :=
  st.write_pos < U64 ∧ st.read_pos < U64 ∧
  (∃ k, k ≤ 32 ∧ st.capacity = 2 ^ k) ∧
  st.mask = st.capacity - 1 ∧
  st.slots.length = st.capacity ∧
  usub st.write_pos st.read_pos ≤ st.capacity

/-- One RingBuffer operation, for stating invariant preservation over every
mutating entry point of the class. -/
inductive RingOp (α : Type) where
  | push (slot : α)
  | pop
  | push_with_prefetch (slot : α)
  | pop_with_prefetch
  | push_bulk (xs : List α)
  | pop_bulk (n : Nat)
  | advance (count : Nat)
  | push_or_block (slot : α) (mode : BackPressureMode)

/-- The state reached by executing one operation (an operation that throws,
such as an over-long `advance_write_pos`, leaves the state unchanged). -/
def RingBuffer.apply [Inhabited α] (st : RingBuffer α) : RingOp α → RingBuffer α
  | .push s => (st.try_push s).2
  | .pop => (st.try_pop).2
  | .push_with_prefetch s => (st.try_push_with_prefetch s).2
  | .pop_with_prefetch => (st.try_pop_with_prefetch).2
  | .push_bulk xs => (st.try_push_bulk xs).2
  | .pop_bulk n => (st.try_pop_bulk n).2
  | .advance c => match st.advance_write_pos c with
                  | .ok st' => st'
                  | .error _ => st
  | .push_or_block s m => (st.try_push_or_block s m).2

theorem write_loop_length (slots : List α) (mask write : Nat) (xs : List α) :
    (RingBuffer.write_loop slots mask write xs).length = slots.length := by
  induction xs generalizing slots write with
  | nil => rfl
  | cons x rest ih =>
    simp [RingBuffer.write_loop, ih]

theorem capacity_lt_U64 (st : RingBuffer α) (h : st.Inv) : st.capacity < U64 := by
  obtain ⟨-, -, ⟨k, hk, hcap⟩, -⟩ := h
  have : (2 : Nat) ^ k ≤ 2 ^ 32 := Nat.pow_le_pow_right (by norm_num) hk
  simp only [U64, hcap]
  calc 2 ^ k ≤ 2 ^ 32 := this
    _ < 2 ^ 64 := by norm_num

theorem try_push_inv [Inhabited α] (st : RingBuffer α) (s : α) (h : st.Inv) :
    ((st.try_push s).2).Inv := by
  have hcap := capacity_lt_U64 st h
  obtain ⟨hw, hr, hpow, hmask, hlen, hsz⟩ := h
  simp only [RingBuffer.try_push]
  split
  · exact ⟨hw, hr, hpow, hmask, hlen, hsz⟩
  · rename_i hfull
    push_neg at hfull
    refine ⟨uadd_lt _ _, hr, hpow, hmask, ?_, ?_⟩
    · simpa [List.length_set] using hlen
    · have := usub_uadd_left st.write_pos st.read_pos 1 hr
      simp only [this]
      have h1 : usub st.write_pos st.read_pos + 1 ≤ st.capacity := hfull
      calc (usub st.write_pos st.read_pos + 1) % U64
          ≤ usub st.write_pos st.read_pos + 1 := Nat.mod_le _ _
        _ ≤ st.capacity := h1

theorem try_pop_inv [Inhabited α] (st : RingBuffer α) (h : st.Inv) :
    ((st.try_pop).2).Inv := by
  obtain ⟨hw, hr, hpow, hmask, hlen, hsz⟩ := h
  simp only [RingBuffer.try_pop]
  split
  · exact ⟨hw, hr, hpow, hmask, hlen, hsz⟩
  · rename_i hne
    refine ⟨hw, uadd_lt _ _, hpow, hmask, hlen, ?_⟩
    have hnz : usub st.write_pos st.read_pos ≠ 0 := by
      rw [Ne, usub_eq_zero_iff _ _ hw hr]
      omega
    have h1 : (1 : Nat) ≤ usub st.write_pos st.read_pos := by omega
    have := usub_uadd_right st.write_pos st.read_pos 1 hw hr (by norm_num [U64]) h1
    simp only [this]
    omega

theorem try_push_bulk_inv (st : RingBuffer α) (xs : List α) (h : st.Inv) :
    ((st.try_push_bulk xs).2).Inv := by
  have hcap := capacity_lt_U64 st h
  obtain ⟨hw, hr, hpow, hmask, hlen, hsz⟩ := h
  simp only [RingBuffer.try_push_bulk]
  split
  · exact ⟨hw, hr, hpow, hmask, hlen, hsz⟩
  · split
    · exact ⟨hw, hr, hpow, hmask, hlen, hsz⟩
    · rename_i xs' x rest hnz
      refine ⟨uadd_lt _ _, hr, hpow, hmask, ?_, ?_⟩
      · simpa [write_loop_length] using hlen
      · have havail : usub st.capacity (usub st.write_pos st.read_pos)
            = st.capacity - usub st.write_pos st.read_pos :=
          usub_of_le _ _ hcap hsz
        have := usub_uadd_left st.write_pos st.read_pos
          (min (x :: rest).length (usub st.capacity (usub st.write_pos st.read_pos))) hr
        rw [this, havail]
        have hle : min (x :: rest).length (st.capacity - usub st.write_pos st.read_pos)
            ≤ st.capacity - usub st.write_pos st.read_pos := Nat.min_le_right _ _
        calc (usub st.write_pos st.read_pos +
                min (x :: rest).length (st.capacity - usub st.write_pos st.read_pos)) % U64
            ≤ usub st.write_pos st.read_pos +
                min (x :: rest).length (st.capacity - usub st.write_pos st.read_pos) :=
              Nat.mod_le _ _
          _ ≤ st.capacity := by omega

theorem try_pop_bulk_inv [Inhabited α] (st : RingBuffer α) (n : Nat) (h : st.Inv) :
    ((st.try_pop_bulk n).2).Inv := by
  have hcap := capacity_lt_U64 st h
  obtain ⟨hw, hr, hpow, hmask, hlen, hsz⟩ := h
  simp only [RingBuffer.try_pop_bulk]
  split
  · exact ⟨hw, hr, hpow, hmask, hlen, hsz⟩
  · split
    · exact ⟨hw, hr, hpow, hmask, hlen, hsz⟩
    · rename_i hn hnz
      refine ⟨hw, uadd_lt _ _, hpow, hmask, hlen, ?_⟩
      have hle : min n (usub st.write_pos st.read_pos) ≤ usub st.write_pos st.read_pos :=
        Nat.min_le_right _ _
      have hklt : min n (usub st.write_pos st.read_pos) < U64 :=
        lt_of_le_of_lt hle (usub_lt _ _)
      have := usub_uadd_right st.write_pos st.read_pos
        (min n (usub st.write_pos st.read_pos)) hw hr hklt hle
      simp only [this]
      omega

theorem advance_write_pos_inv (st : RingBuffer α) (c : Nat) (st' : RingBuffer α)
    (h : st.Inv) (hok : st.advance_write_pos c = .ok st') : st'.Inv := by
  obtain ⟨hw, hr, hpow, hmask, hlen, hsz⟩ := h
  simp only [RingBuffer.advance_write_pos] at hok
  split at hok
  · cases hok
    exact ⟨hw, hr, hpow, hmask, hlen, hsz⟩
  · split at hok
    · cases hok
    · rename_i hc hguard
      push_neg at hguard
      cases hok
      exact ⟨uadd_lt _ _, hr, hpow, hmask, hlen, hguard⟩

theorem apply_inv [Inhabited α] (st : RingBuffer α) (op : RingOp α) (h : st.Inv) :
    (st.apply op).Inv := by
  cases op with
  | push s => exact try_push_inv st s h
  | pop => exact try_pop_inv st h
  | push_with_prefetch s => exact try_push_inv st s h
  | pop_with_prefetch => exact try_pop_inv st h
  | push_bulk xs => exact try_push_bulk_inv st xs h
  | pop_bulk n => exact try_pop_bulk_inv st n h
  | advance c =>
    simp only [RingBuffer.apply]
    split
    · rename_i st' hok
      exact advance_write_pos_inv st c st' h hok
    · exact h
  | push_or_block s m =>
    cases m with
    | DROP => exact try_push_inv st s h
    | BLOCK => exact try_push_inv st s h

theorem try_push_false_iff (st : RingBuffer α) (s : α) (h : st.Inv) :
    ((st.try_push s).1 = false) ↔ st.size = st.capacity := by
  obtain ⟨hw, hr, hpow, hmask, hlen, hsz⟩ := h
  simp only [RingBuffer.try_push, RingBuffer.size]
  split
  · rename_i hfull
    simp only [true_iff]
    omega
  · rename_i hfull
    push_neg at hfull
    simp only [Bool.true_eq_false, false_iff]
    omega

theorem try_push_false_state (st : RingBuffer α) (s : α)
    (h : (st.try_push s).1 = false) : (st.try_push s).2 = st := by
  by_cases hc : usub st.write_pos st.read_pos ≥ st.capacity
  · simp [RingBuffer.try_push, hc]
  · simp [RingBuffer.try_push, hc] at h

theorem try_pop_none_iff [Inhabited α] (st : RingBuffer α) :
    ((st.try_pop).1 = none) ↔ st.read_pos = st.write_pos := by
  simp only [RingBuffer.try_pop]
  split
  · simpa
  · simpa

theorem try_pop_none_state [Inhabited α] (st : RingBuffer α)
    (h : (st.try_pop).1 = none) : (st.try_pop).2 = st := by
  simp only [RingBuffer.try_pop] at *
  split at h
  · rename_i heq
    simp [RingBuffer.try_pop, heq]
  · simp at h

/-- **C3.** Every RingBuffer operation preserves the invariant
`0 ≤ write_pos - read_pos ≤ capacity` (the size being the unsigned 64-bit
difference of the position counters); `try_push` returns `false` exactly
when `write_pos - read_pos` equals `capacity` and then leaves the buffer
unchanged; `try_pop` returns `false` exactly when `write_pos` equals
`read_pos` (equivalently, under the invariant, exactly when the size is
zero) and then leaves the buffer unchanged.  Hence no push succeeds on a
full buffer and no pop succeeds on an empty one. -/
theorem C3_ring_size_invariant_and_guards (α : Type) [Inhabited α] :
    (∀ (st : RingBuffer α) (op : RingOp α), st.Inv → (st.apply op).Inv) ∧
    (∀ (st : RingBuffer α) (s : α), st.Inv →
      (((st.try_push s).1 = false) ↔ st.size = st.capacity)) ∧
    (∀ (st : RingBuffer α) (s : α),
      (st.try_push s).1 = false → (st.try_push s).2 = st) ∧
    (∀ st : RingBuffer α, ((st.try_pop).1 = none) ↔ st.read_pos = st.write_pos) ∧
    (∀ st : RingBuffer α, st.Inv → (((st.try_pop).1 = none) ↔ st.size = 0)) ∧
    (∀ st : RingBuffer α, (st.try_pop).1 = none → (st.try_pop).2 = st) := by
  refine ⟨fun st op h => apply_inv st op h,
          fun st s h => try_push_false_iff st s h,
          fun st s h => try_push_false_state st s h,
          fun st => try_pop_none_iff st,
          fun st h => ?_,
          fun st h => try_pop_none_state st h⟩
  rw [try_pop_none_iff st]
  obtain ⟨hw, hr, -⟩ := h
  rw [RingBuffer.size, usub_eq_zero_iff _ _ hw hr]
  omega

/-- Witness for C3 at concrete inputs: a well-formed buffer of capacity 4
keeps its invariant across a push, a full buffer rejects a push, and an
empty buffer rejects a pop. -/
theorem C3_witness :
    (RingBuffer.apply
      ({ capacity := 4, mask := 3, slots := [10, 11, 12, 13],
         write_pos := 2, read_pos := 1, high_water_mark := 1 } : RingBuffer Nat)
      (RingOp.push 7)).Inv ∧
    ((RingBuffer.try_push
      ({ capacity := 4, mask := 3, slots := [10, 11, 12, 13],
         write_pos := 5, read_pos := 1, high_water_mark := 4 } : RingBuffer Nat) 7).1
      = false) ∧
    ((RingBuffer.try_pop
      ({ capacity := 4, mask := 3, slots := [10, 11, 12, 13],
         write_pos := 2, read_pos := 2, high_water_mark := 2 } : RingBuffer Nat)).1
      = none) := by
  have h1 : ({ capacity := 4, mask := 3, slots := [10, 11, 12, 13],
               write_pos := 2, read_pos := 1, high_water_mark := 1 } : RingBuffer Nat).Inv :=
    ⟨by decide, by decide, ⟨2, by decide, by decide⟩, by decide, by decide, by decide⟩
  have h2 : ({ capacity := 4, mask := 3, slots := [10, 11, 12, 13],
               write_pos := 5, read_pos := 1, high_water_mark := 4 } : RingBuffer Nat).Inv :=
    ⟨by decide, by decide, ⟨2, by decide, by decide⟩, by decide, by decide, by decide⟩
  refine ⟨(C3_ring_size_invariant_and_guards Nat).1 _ _ h1, ?_, ?_⟩
  · exact ((C3_ring_size_invariant_and_guards Nat).2.1 _ 7 h2).mpr (by decide)
  · exact ((C3_ring_size_invariant_and_guards Nat).2.2.2.1 _).mpr (by decide)

/-- `k` successive `try_push` calls, one per element of `xs` in order,
discarding the success flags (a failed push leaves the state unchanged). -/
def RingBuffer.push_iter (st : RingBuffer α) (xs : List α) : RingBuffer α :=
  match xs with
  | [] => st
  | x :: rest => RingBuffer.push_iter (st.try_push x).2 rest

/-- `n` successive `try_pop` calls, collecting the popped slots in order. -/
def RingBuffer.pop_iter [Inhabited α] (st : RingBuffer α) (n : Nat) :
    List α × RingBuffer α :=
  match n with
  | 0 => ([], st)
  | k + 1 =>
    let p := st.try_pop
    let rest := RingBuffer.pop_iter p.2 k
    (p.1.toList ++ rest.1, rest.2)

theorem if_gt_eq_max (a h : Nat) : (if a > h then a else h) = max h a := by
  split <;> omega

theorem try_push_succ_state [Inhabited α] (st : RingBuffer α) (x : α)
    (h : st.Inv) (hroom : st.size < st.capacity) :
    st.try_push x =
      (true, { st with slots := st.slots.set (st.write_pos &&& st.mask) x,
                       write_pos := uadd st.write_pos 1,
                       high_water_mark := max st.high_water_mark (st.size + 1) }) := by
  obtain ⟨hw, hr, hpow, hmask, hlen, hsz⟩ := h
  have hcap := capacity_lt_U64 st ⟨hw, hr, hpow, hmask, hlen, hsz⟩
  rw [RingBuffer.size] at hroom
  have hsize1 : usub (uadd st.write_pos 1) st.read_pos
      = usub st.write_pos st.read_pos + 1 := by
    rw [usub_uadd_left _ _ _ hr]
    have : usub st.write_pos st.read_pos + 1 < U64 := by
      have := usub_lt st.write_pos st.read_pos
      simp only [U64] at *
      omega
    exact Nat.mod_eq_of_lt this
  simp only [RingBuffer.try_push, RingBuffer.size]
  rw [if_neg (by omega)]
  simp only [hsize1, if_gt_eq_max]

theorem try_pop_some_state [Inhabited α] (st : RingBuffer α)
    (h : st.read_pos ≠ st.write_pos) :
    st.try_pop = (some (st.slots.getD (st.read_pos &&& st.mask) default),
                  { st with read_pos := uadd st.read_pos 1 }) := by
  simp only [RingBuffer.try_pop]
  rw [if_neg h]

theorem size_try_push [Inhabited α] (st : RingBuffer α) (x : α)
    (h : st.Inv) (hroom : st.size < st.capacity) :
    ((st.try_push x).2).size = st.size + 1 := by
  have hcap := capacity_lt_U64 st h
  obtain ⟨hw, hr, hpow, hmask, hlen, hsz⟩ := h
  rw [try_push_succ_state st x ⟨hw, hr, hpow, hmask, hlen, hsz⟩ hroom]
  simp only [RingBuffer.size] at hroom ⊢
  rw [usub_uadd_left _ _ _ hr]
  have hlt : usub st.write_pos st.read_pos + 1 < U64 := by omega
  exact Nat.mod_eq_of_lt hlt

theorem push_iter_closed [Inhabited α] (xs : List α) (st : RingBuffer α)
    (h : st.Inv) (hfit : st.size + xs.length ≤ st.capacity) (hne : xs ≠ []) :
    st.push_iter xs =
      { st with slots := RingBuffer.write_loop st.slots st.mask st.write_pos xs,
                write_pos := uadd st.write_pos xs.length,
                high_water_mark := max st.high_water_mark (st.size + xs.length) } := by
  induction xs generalizing st with
  | nil => simp at hne
  | cons x rest ih =>
    have hroom : st.size < st.capacity := by
      simp only [List.length_cons] at hfit
      omega
    have hpush := try_push_succ_state st x h hroom
    rcases Nat.eq_zero_or_pos rest.length with hrest0 | hrestpos
    · have : rest = [] := List.length_eq_zero.mp hrest0
      subst this
      simp only [RingBuffer.push_iter, hpush, RingBuffer.write_loop, List.length_cons,
        List.length_nil]
    · have hrestne : rest ≠ [] := by
        intro hcon
        simp [hcon] at hrestpos
      have hst1 : ((st.try_push x).2).Inv := try_push_inv st x h
      have hsz1 : ((st.try_push x).2).size = st.size + 1 := size_try_push st x h hroom
      simp only [RingBuffer.push_iter]
      rw [hpush] at hst1 hsz1 ⊢
      simp only at hst1 hsz1 ⊢
      rw [ih _ hst1
        (by rw [hsz1]; simp only [List.length_cons] at hfit ⊢; omega) hrestne]
      rw [hsz1]
      simp only [List.length_cons, RingBuffer.write_loop, RingBuffer.mk.injEq,
        true_and, and_true]
      refine ⟨?_, ?_⟩
      · rw [uadd_uadd]
        congr 1
        omega
      · rw [max_assoc]
        congr 1
        omega

theorem size_try_pop [Inhabited α] (st : RingBuffer α) (h : st.Inv)
    (hne : st.read_pos ≠ st.write_pos) : ((st.try_pop).2).size = st.size - 1 := by
  obtain ⟨hw, hr, hpow, hmask, hlen, hsz⟩ := h
  rw [try_pop_some_state st hne]
  simp only [RingBuffer.size]
  have hnz : usub st.write_pos st.read_pos ≠ 0 := by
    rw [Ne, usub_eq_zero_iff _ _ hw hr]
    omega
  exact usub_uadd_right st.write_pos st.read_pos 1 hw hr (by norm_num [U64]) (by omega)

theorem read_loop_length [Inhabited α] (slots : List α) (mask read n : Nat) :
    (RingBuffer.read_loop slots mask read n).length = n := by
  induction n generalizing read with
  | zero => rfl
  | succ k ih => simp [RingBuffer.read_loop, ih]

theorem pop_iter_closed [Inhabited α] (k : Nat) (st : RingBuffer α)
    (h : st.Inv) (hk : k ≤ st.size) :
    st.pop_iter k = (RingBuffer.read_loop st.slots st.mask st.read_pos k,
                     { st with read_pos := uadd st.read_pos k }) := by
  induction k generalizing st with
  | zero =>
    obtain ⟨hw, hr, -⟩ := h
    simp only [RingBuffer.pop_iter, RingBuffer.read_loop]
    have : uadd st.read_pos 0 = st.read_pos := by
      simp only [uadd]
      exact Nat.mod_eq_of_lt hr
    rw [this]
  | succ k ih =>
    have hcap := capacity_lt_U64 st h
    obtain ⟨hw, hr, hpow, hmask, hlen, hsz⟩ := h
    have hne : st.read_pos ≠ st.write_pos := by
      have : usub st.write_pos st.read_pos ≠ 0 := by
        simp only [RingBuffer.size] at hk
        omega
      rw [Ne, usub_eq_zero_iff _ _ hw hr] at this
      omega
    have hpop := try_pop_some_state st hne
    have hst1 : ((st.try_pop).2).Inv := try_pop_inv st ⟨hw, hr, hpow, hmask, hlen, hsz⟩
    have hsz1 : ((st.try_pop).2).size = st.size - 1 :=
      size_try_pop st ⟨hw, hr, hpow, hmask, hlen, hsz⟩ hne
    have hkk : k ≤ ((st.try_pop).2).size := by
      rw [hsz1]
      have hk2 := hk
      unfold RingBuffer.size at hk2 ⊢
      omega
    have hih := ih ((st.try_pop).2) hst1 hkk
    simp only [RingBuffer.pop_iter]
    rw [hih, hpop]
    simp only [RingBuffer.read_loop, Option.toList_some, List.singleton_append,
      RingBuffer.mk.injEq, true_and, and_true, List.cons.injEq]
    rw [uadd_uadd, Nat.add_comm 1 k]

theorem try_push_bulk_zero (st : RingBuffer α) (xs : List α) (h : st.Inv)
    (hk : min xs.length (st.capacity - st.size) = 0) :
    st.try_push_bulk xs = (0, st) := by
  have hcap := capacity_lt_U64 st h
  obtain ⟨hw, hr, hpow, hmask, hlen, hsz⟩ := h
  cases xs with
  | nil => rfl
  | cons x rest =>
    simp only [RingBuffer.try_push_bulk]
    rw [usub_of_le st.capacity (usub st.write_pos st.read_pos) hcap hsz]
    rw [if_pos]
    simp only [RingBuffer.size] at hk
    exact hk

theorem try_push_bulk_closed (st : RingBuffer α) (xs : List α) (h : st.Inv)
    (hk : 1 ≤ min xs.length (st.capacity - st.size)) :
    st.try_push_bulk xs = (min xs.length (st.capacity - st.size),
      { st with slots := RingBuffer.write_loop st.slots st.mask st.write_pos
                  (xs.take (min xs.length (st.capacity - st.size))),
                write_pos := uadd st.write_pos (min xs.length (st.capacity - st.size)),
                high_water_mark := max st.high_water_mark
                  (st.size + min xs.length (st.capacity - st.size)) }) := by
  have hcap := capacity_lt_U64 st h
  obtain ⟨hw, hr, hpow, hmask, hlen, hsz⟩ := h
  cases xs with
  | nil => simp at hk
  | cons x rest =>
    simp only [RingBuffer.try_push_bulk]
    rw [usub_of_le st.capacity (usub st.write_pos st.read_pos) hcap hsz]
    rw [if_neg (by simp only [RingBuffer.size] at hk; omega)]
    have hsizeq : usub (uadd st.write_pos
        (min (x :: rest).length (st.capacity - usub st.write_pos st.read_pos)))
        st.read_pos
        = usub st.write_pos st.read_pos
          + min (x :: rest).length (st.capacity - usub st.write_pos st.read_pos) := by


      rw [usub_uadd_left _ _ _ hr]
      apply Nat.mod_eq_of_lt
      have hmin : min (x :: rest).length (st.capacity - usub st.write_pos st.read_pos)
          ≤ st.capacity - usub st.write_pos st.read_pos := Nat.min_le_right _ _
      simp only [U64] at *
      omega
    rw [hsizeq, if_gt_eq_max]
    simp only [RingBuffer.size]

theorem C6_helper_pop [Inhabited α] (st : RingBuffer α) (h : st.Inv) (n : Nat) :
    st.try_pop_bulk n = st.pop_iter (min n st.size) := by
  have hcap := capacity_lt_U64 st h
  have hInv := h
  obtain ⟨hw, hr, hpow, hmask, hlen, hsz⟩ := h
  rcases Nat.eq_zero_or_pos (min n st.size) with h0 | hpos
  · rw [h0]
    simp only [RingBuffer.pop_iter]
    simp only [RingBuffer.try_pop_bulk]
    split
    · rfl
    · rw [if_pos]
      simp only [RingBuffer.size] at h0
      omega
  · have hn : n ≠ 0 := by
      intro hcon
      simp [hcon] at hpos
    rw [pop_iter_closed (min n st.size) st hInv (Nat.min_le_right _ _)]
    simp only [RingBuffer.try_pop_bulk, RingBuffer.size]
    rw [if_neg hn, if_neg (by simp only [RingBuffer.size] at hpos; omega)]

/-- **C6.** `try_push_bulk(slots, n)` pushes exactly
`k = min(n, capacity - size)` slots, returns `k`, and leaves the buffer in
exactly the state produced by `k` successive `try_push` calls on the first
`k` slots (contents, positions and high-water mark included); symmetrically
`try_pop_bulk(out, m)` pops exactly `min(m, size)` slots with the same output
and state as that many successive `try_pop` calls. -/
theorem C6_bulk_equals_iterated (α : Type) [Inhabited α] :
    ∀ st : RingBuffer α, st.Inv →
      (∀ xs : List α,
        (st.try_push_bulk xs).1 = min xs.length (st.capacity - st.size) ∧
        (st.try_push_bulk xs).2
          = st.push_iter (xs.take (min xs.length (st.capacity - st.size)))) ∧
      (∀ n : Nat,
        st.try_pop_bulk n = st.pop_iter (min n st.size) ∧
        (st.try_pop_bulk n).1.length = min n st.size) := by
  intro st h
  refine ⟨fun xs => ?_, fun n => ?_⟩
  · rcases Nat.eq_zero_or_pos (min xs.length (st.capacity - st.size)) with h0 | hpos
    · rw [try_push_bulk_zero st xs h h0, h0]
      simp [RingBuffer.push_iter]
    · have hbulk := try_push_bulk_closed st xs h hpos
      have hfit : st.size + (xs.take (min xs.length (st.capacity - st.size))).length
          ≤ st.capacity := by
        rw [List.length_take]
        have h1 : min xs.length (st.capacity - st.size) ≤ st.capacity - st.size :=
          Nat.min_le_right _ _
        have h2 : st.size ≤ st.capacity := by
          obtain ⟨hw, hr, hpow, hmask, hlen, hsz⟩ := h
          simpa [RingBuffer.size] using hsz
        omega
      have hne : xs.take (min xs.length (st.capacity - st.size)) ≠ [] := by
        have hlen2 : (xs.take (min xs.length (st.capacity - st.size))).length ≠ 0 := by
          rw [List.length_take]
          omega
        intro hcon
        rw [hcon] at hlen2
        simp at hlen2
      rw [push_iter_closed _ st h hfit hne, hbulk]
      simp only [List.length_take, RingBuffer.mk.injEq, true_and, and_true]
      constructor
      · congr 1
        omega
      · congr 2
        omega
  · refine ⟨C6_helper_pop st h n, ?_⟩
    rw [C6_helper_pop st h n]
    rw [pop_iter_closed (min n st.size) st h (Nat.min_le_right _ _)]
    exact read_loop_length _ _ _ _

/-- Witness for C6 at concrete inputs: capacity 4, two occupied cells,
pushing three slots in bulk pushes `min(3, 2) = 2` of them and matches two
successive pushes; popping five in bulk pops `min(5, 2) = 2` and matches
two successive pops. -/
theorem C6_witness :
    ((RingBuffer.try_push_bulk
      ({ capacity := 4, mask := 3, slots := [5, 6, 0, 0],
         write_pos := 2, read_pos := 0, high_water_mark := 2 } : RingBuffer Nat)
      [7, 8, 9]).1 = 2) ∧
    ((RingBuffer.try_push_bulk
      ({ capacity := 4, mask := 3, slots := [5, 6, 0, 0],
         write_pos := 2, read_pos := 0, high_water_mark := 2 } : RingBuffer Nat)
      [7, 8, 9]).2
      = RingBuffer.push_iter
        ({ capacity := 4, mask := 3, slots := [5, 6, 0, 0],
           write_pos := 2, read_pos := 0, high_water_mark := 2 } : RingBuffer Nat)
        [7, 8]) ∧
    (RingBuffer.try_pop_bulk
      ({ capacity := 4, mask := 3, slots := [5, 6, 0, 0],
         write_pos := 2, read_pos := 0, high_water_mark := 2 } : RingBuffer Nat) 5
      = RingBuffer.pop_iter
        ({ capacity := 4, mask := 3, slots := [5, 6, 0, 0],
           write_pos := 2, read_pos := 0, high_water_mark := 2 } : RingBuffer Nat) 2) := by
  have hinv : ({ capacity := 4, mask := 3, slots := [5, 6, 0, 0],
                 write_pos := 2, read_pos := 0, high_water_mark := 2 } : RingBuffer Nat).Inv :=
    ⟨by decide, by decide, ⟨2, by decide, by decide⟩, by decide, by decide, by decide⟩
  have h := C6_bulk_equals_iterated Nat _ hinv
  have h1 := (h.1 [7, 8, 9]).1
  have h2 := (h.1 [7, 8, 9]).2
  have h3 := (h.2 5).1
  norm_num [RingBuffer.size, usub, U64] at h1 h2 h3
  exact ⟨h1, h2, h3⟩

/-- **C10.** The RingBuffer constructor throws `std::invalid_argument`
exactly when the requested capacity is zero, not a power of two, or greater
than `2^32`; for every other capacity it constructs an empty buffer
(`write_pos = read_pos = 0`, `high_water_mark = 0`, size `0`) whose index
mask equals `capacity - 1` and whose backing vector has `capacity` cells. -/
theorem C10_constructor_validation (α : Type) [Inhabited α] (capacity : Nat) :
    ((∃ e, RingBuffer.construct α capacity = .error e) ↔
      (capacity = 0 ∨ is_power_of_two capacity = false ∨ capacity > 2 ^ 32)) ∧
    (∀ st : RingBuffer α, RingBuffer.construct α capacity = .ok st →
      st.capacity = capacity ∧ st.mask = capacity - 1 ∧ st.write_pos = 0 ∧
      st.read_pos = 0 ∧ st.high_water_mark = 0 ∧ st.size = 0 ∧
      st.slots.length = capacity) := by
  constructor
  · constructor
    · rintro ⟨e, he⟩
      by_cases h0 : capacity = 0
      · exact Or.inl h0
      by_cases hp : is_power_of_two capacity
      · by_cases hl : capacity > 2 ^ 32
        · exact Or.inr (Or.inr hl)
        · have hl' : ¬ (4294967296 < capacity) := by omega
          simp [RingBuffer.construct, RingBuffer.validate_capacity, h0, hp, hl'] at he
      · exact Or.inr (Or.inl (by simpa using hp))
    · intro h
      by_cases h0 : capacity = 0
      · exact ⟨"Ring buffer capacity cannot be zero",
          by simp [RingBuffer.construct, RingBuffer.validate_capacity, h0]⟩
      by_cases hp : is_power_of_two capacity
      · have hl : capacity > 2 ^ 32 := by
          rcases h with h | h | h
          · exact absurd h h0
          · rw [hp] at h
            cases h
          · exact h
        have hl' : 4294967296 < capacity := by omega
        exact ⟨"Ring buffer capacity too large (max 2^32)",
          by simp [RingBuffer.construct, RingBuffer.validate_capacity, h0, hp, hl']⟩
      · exact ⟨"Ring buffer capacity must be power of 2",
          by simp [RingBuffer.construct, RingBuffer.validate_capacity, h0, hp]⟩
  · intro st hok
    simp only [RingBuffer.construct] at hok
    split at hok
    · cases hok
    · cases hok
      refine ⟨rfl, rfl, rfl, rfl, rfl, ?_, ?_⟩
      · simp [RingBuffer.size, usub, U64]
      · simp

/-- Witness for C10: capacity 12 (not a power of two) is rejected, and
capacity 8 yields the zero-initialized buffer with mask 7. -/
theorem C10_witness :
    (∃ e, RingBuffer.construct Nat 12 = Except.error e) ∧
    (({ capacity := 8, mask := 7, slots := List.replicate 8 0, write_pos := 0,
        read_pos := 0, high_water_mark := 0 } : RingBuffer Nat).capacity = 8 ∧
     ({ capacity := 8, mask := 7, slots := List.replicate 8 0, write_pos := 0,
        read_pos := 0, high_water_mark := 0 } : RingBuffer Nat).mask = 8 - 1 ∧
     ({ capacity := 8, mask := 7, slots := List.replicate 8 0, write_pos := 0,
        read_pos := 0, high_water_mark := 0 } : RingBuffer Nat).write_pos = 0 ∧
     ({ capacity := 8, mask := 7, slots := List.replicate 8 0, write_pos := 0,
        read_pos := 0, high_water_mark := 0 } : RingBuffer Nat).read_pos = 0 ∧
     ({ capacity := 8, mask := 7, slots := List.replicate 8 0, write_pos := 0,
        read_pos := 0, high_water_mark := 0 } : RingBuffer Nat).high_water_mark = 0 ∧
     ({ capacity := 8, mask := 7, slots := List.replicate 8 0, write_pos := 0,
        read_pos := 0, high_water_mark := 0 } : RingBuffer Nat).size = 0 ∧
     ({ capacity := 8, mask := 7, slots := List.replicate 8 0, write_pos := 0,
        read_pos := 0, high_water_mark := 0 } : RingBuffer Nat).slots.length = 8) := by
  constructor
  · exact (C10_constructor_validation Nat 12).1.mpr (Or.inr (Or.inl (by decide)))
  · exact (C10_constructor_validation Nat 8).2 _ rfl

/-! ## Streaming record parser (`src/ingestion.cpp`, `MessageParser`)

Bytes are modelled as `Nat` values; a decoded record is its 20-byte slice
of the stream (`std::memcpy(&msg, data + offset, sizeof(Msg))` is byte
reinterpretation, so the record content is exactly those 20 bytes). -/

/-- `sizeof(Msg)`: 20 bytes (`#pragma pack(1)` layout `u64 + f64 + i32`). -/
def msg_size : Nat := 20

/-- The `while (offset + sizeof(Msg) <= size)` loop of
`MessageParser::parse_bytes`: splits the buffer into consecutive 20-byte
records (in order) and returns them together with the trailing remainder
(the bytes from the final `offset` on). -/
def parse_loop (buf : List Nat) : List (List Nat) × List Nat :=
  if h : msg_size ≤ buf.length then
    let rest := parse_loop (buf.drop msg_size)
    (buf.take msg_size :: rest.1, rest.2)
  else
    ([], buf)
termination_by buf.length
decreasing_by simp only [List.length_drop, msg_size] at *; omega

/-- `MessageParser::parse_bytes` (src/ingestion.cpp lines 150-181), carry
handling only: the partial buffer from the previous call is prepended to
the incoming chunk (`partial_buffer_.resize` + `memcpy`; an empty carry
leaves `data` untouched, which coincides with prepending `[]`), complete
records are emitted in order, and the remainder is saved as the new carry
(`partial_buffer_.assign` / `clear`).  Returns (emitted records, new carry). -/
def parse_bytes (partial_buffer data : List Nat) : List (List Nat) × List Nat :=
  parse_loop (partial_buffer ++ data)

/-- Successive `parse_bytes` calls over a list of chunks, threading the
carry buffer; returns all emitted records in order and the final carry. -/
def parse_chunks (partial_buffer : List Nat) :
    List (List Nat) → List (List Nat) × List Nat
  | [] => ([], partial_buffer)
  | c :: cs =>
    let p := parse_bytes partial_buffer c
    let r := parse_chunks p.2 cs
    (p.1 ++ r.1, r.2)

/-- Modelled from the spec (§8 *Parser total*): the record-aligned
interpretation of a byte stream — record `i` is the slice
`[20·i, 20·i + 20)`. -/
def alignedRecords (bs : List Nat) : List (List Nat) :=
  (List.range (bs.length / msg_size)).map (fun i => (bs.drop (msg_size * i)).take msg_size)

/-- Modelled from the spec: the trailing `length mod 20` bytes that no
complete record covers. -/
def alignedRemainder (bs : List Nat) : List Nat :=
  bs.drop (msg_size * (bs.length / msg_size))

theorem parse_loop_remainder_aux (n : Nat) :
    ∀ bs : List Nat, bs.length ≤ n → (parse_loop bs).2.length < msg_size := by
  induction n with
  | zero =>
    intro bs h
    rw [parse_loop, dif_neg (by simp only [msg_size]; omega)]
    simp only [msg_size]
    omega
  | succ n ih =>
    intro bs h
    rw [parse_loop]
    split
    · exact ih (bs.drop msg_size) (by simp only [List.length_drop, msg_size] at *; omega)
    · rename_i hlt
      simp only [msg_size] at *
      omega

theorem parse_loop_remainder_lt (bs : List Nat) : (parse_loop bs).2.length < msg_size :=
  parse_loop_remainder_aux bs.length bs le_rfl

theorem parse_loop_aligned_aux (n : Nat) :
    ∀ bs : List Nat, bs.length ≤ n →
      parse_loop bs = (alignedRecords bs, alignedRemainder bs) := by
  induction n with
  | zero =>
    intro bs h
    have h0 : bs.length = 0 := by omega
    rw [parse_loop, dif_neg (by simp only [msg_size]; omega)]
    rw [alignedRecords, alignedRemainder, h0]
    simp [msg_size]
  | succ n ih =>
    intro bs h
    rw [parse_loop]
    split
    · rename_i hge
      rw [ih (bs.drop msg_size) (by simp only [List.length_drop, msg_size] at *; omega)]
      have hdiv : bs.length / msg_size = (bs.drop msg_size).length / msg_size + 1 := by
        rw [List.length_drop]
        rw [Nat.div_eq_sub_div (by norm_num [msg_size]) hge]
      have hrec : alignedRecords bs
          = bs.take msg_size :: alignedRecords (bs.drop msg_size) := by
        rw [alignedRecords, alignedRecords, hdiv, List.range_succ_eq_map]
        simp only [List.map_cons, Nat.mul_zero, List.drop_zero, List.map_map]
        congr 1
        apply List.map_congr_left
        intro i hi
        simp only [Function.comp_apply, List.drop_drop]
        congr 2
        simp only [Nat.succ_eq_add_one]
        ring
      have hrem : alignedRemainder bs = alignedRemainder (bs.drop msg_size) := by
        rw [alignedRemainder, alignedRemainder, hdiv, List.drop_drop]
        congr 1
        rw [List.length_drop]
        ring
      rw [hrec, hrem]
    · rename_i hnge
      have hlt : bs.length < msg_size := Nat.lt_of_not_le hnge
      have hdiv : bs.length / msg_size = 0 := Nat.div_eq_of_lt hlt
      rw [alignedRecords, alignedRemainder, hdiv]
      simp

theorem parse_loop_aligned (bs : List Nat) :
    parse_loop bs = (alignedRecords bs, alignedRemainder bs) :=
  parse_loop_aligned_aux bs.length bs le_rfl

theorem parse_loop_append_aux (n : Nat) :
    ∀ a b : List Nat, a.length ≤ n →
      parse_loop (a ++ b)
        = ((parse_loop a).1 ++ (parse_loop ((parse_loop a).2 ++ b)).1,
           (parse_loop ((parse_loop a).2 ++ b)).2) := by
  induction n with
  | zero =>
    intro a b h
    have heq : parse_loop a = ([], a) := by
      rw [parse_loop, dif_neg (by simp only [msg_size]; omega)]
    rw [heq]
    simp
  | succ n ih =>
    intro a b h
    by_cases hge : msg_size ≤ a.length
    · have hgeab : msg_size ≤ (a ++ b).length := by
        rw [List.length_append]
        omega
      conv_lhs => rw [parse_loop]
      rw [dif_pos hgeab]
      have htake : (a ++ b).take msg_size = a.take msg_size :=
        List.take_append_of_le_length hge
      have hdrop : (a ++ b).drop msg_size = a.drop msg_size ++ b :=
        List.drop_append_of_le_length hge
      rw [htake, hdrop,
        ih (a.drop msg_size) b (by simp only [List.length_drop, msg_size] at *; omega)]
      conv_rhs => rw [parse_loop]
      rw [dif_pos hge]
      simp
    · have heq : parse_loop a = ([], a) := by
        rw [parse_loop, dif_neg hge]
      rw [heq]
      simp

theorem parse_loop_append (a b : List Nat) :
    parse_loop (a ++ b)
      = ((parse_loop a).1 ++ (parse_loop ((parse_loop a).2 ++ b)).1,
         (parse_loop ((parse_loop a).2 ++ b)).2) :=
  parse_loop_append_aux a.length a b le_rfl

theorem parse_chunks_join (carry : List Nat) (cs : List (List Nat))
    (hc : carry.length < msg_size) :
    parse_chunks carry cs = parse_loop (carry ++ cs.join) := by
  induction cs generalizing carry with
  | nil =>
    simp only [parse_chunks, List.join_nil, List.append_nil]
    rw [parse_loop, dif_neg (by omega)]
  | cons c cs ih =>
    simp only [parse_chunks, parse_bytes, List.join_cons]
    rw [ih (parse_loop (carry ++ c)).2 (parse_loop_remainder_lt _)]
    rw [← List.append_assoc, parse_loop_append (carry ++ c) cs.join]

/-- **C2.** For every byte sequence and every way of splitting it into
successive chunks fed to `MessageParser::parse_bytes`, each call consumes
its whole chunk (the model threads only the carry between calls), and the
full sequence of emitted 20-byte records equals, in order, the
record-aligned decoding of the concatenation of all bytes fed so far, with
the trailing `≤ 19`-byte remainder held in the carry buffer and not
emitted. -/
theorem C2_parser_chunk_invariance (chunks : List (List Nat)) :
    (parse_chunks [] chunks).1 = alignedRecords chunks.join ∧
    (parse_chunks [] chunks).2 = alignedRemainder chunks.join ∧
    (parse_chunks [] chunks).2.length ≤ 19 := by
  have h := parse_chunks_join [] chunks (by norm_num [msg_size])
  rw [List.nil_append] at h
  rw [h, parse_loop_aligned]
  refine ⟨rfl, rfl, ?_⟩
  show (alignedRemainder chunks.join).length ≤ 19
  have h2 := parse_loop_remainder_lt chunks.join
  rw [parse_loop_aligned] at h2
  have h3 : (alignedRemainder chunks.join).length < 20 := by
    simpa [msg_size] using h2
  omega

/-! ## Statistics engine (`src/ingestion.cpp`, `IngestionStats`) -/

/-- `mdfh::Msg` (include/mdfh/core.hpp): packed 20-byte record
`seq(u64) | px(f64) | qty(i32)`.  The price is an IEEE-754 double whose
raw bit pattern is carried opaquely — no embedded code path inspects it. -/
structure Msg where
  seq : Nat
  px_bits : Nat
  qty : Int
deriving DecidableEq, Inhabited

/-- `mdfh::Slot` (include/mdfh/ring_buffer.hpp): a ring cell, one record
plus its receive timestamp in nanoseconds. -/
structure Slot where
  raw : Msg
  rx_ts : Nat
deriving DecidableEq, Inhabited

/-- `mdfh::IngestionStats` state.  The `std::uint64_t` event counters are
modelled as unbounded naturals (each claim concerns finitely many unit
increments); `expected_seq_` takes part in 64-bit wrapping arithmetic
(`seq + 1`), kept exact via `uadd`.  `last_flush_` is a
`steady_clock::time_point` in nanoseconds; `latency_buckets_` is the
1001-bin microsecond histogram (indices 0..1000). -/
structure IngestionStats where
  messages_received : Nat
  messages_processed : Nat
  messages_dropped : Nat
  bytes_received : Nat
  first_message_seen : Bool
  expected_seq : Nat
  gap_count : Nat
  last_flush : Nat
  latency_buckets : Nat → Nat

/-- `IngestionStats::IngestionStats()`: in-class zero initializers plus
`last_flush_(steady_clock::now())`. -/
def IngestionStats.init (now : Nat) : IngestionStats :=
  { messages_received := 0, messages_processed := 0, messages_dropped := 0,
    bytes_received := 0, first_message_seen := false, expected_seq := 0,
    gap_count := 0, last_flush := now, latency_buckets := fun _ => 0 }

/-- `IngestionStats::record_bytes_received`. -/
def IngestionStats.record_bytes_received (st : IngestionStats) (bytes : Nat) :
    IngestionStats :=
  { st with bytes_received := st.bytes_received + bytes }

/-- `IngestionStats::record_message_received`. -/
def IngestionStats.record_message_received (st : IngestionStats) : IngestionStats :=
  { st with messages_received := st.messages_received + 1 }

/-- `IngestionStats::record_message_dropped`. -/
def IngestionStats.record_message_dropped (st : IngestionStats) : IngestionStats :=
  { st with messages_dropped := st.messages_dropped + 1 }

/-- `IngestionStats::record_message_processed` (src/ingestion.cpp lines
38-62); `now_ns` is the value `get_timestamp_ns()` returns during the call.
Gap tracking: on the first message `expected_seq_ = slot.raw.seq`; on later
messages the gap counter is incremented by one when `seq != expected_seq_`
and `expected_seq_` becomes `seq + 1`.  Latency: `now - rx_ts` (unsigned),
microsecond bucket, overflow bucket 1000. -/
def IngestionStats.record_message_processed (st : IngestionStats) (slot : Slot)
    (now_ns : Nat) : IngestionStats :=
  let st1 := { st with messages_processed := st.messages_processed + 1 }
  let st2 :=
    if !st1.first_message_seen then
      { st1 with expected_seq := slot.raw.seq, first_message_seen := true }
    else
      let st' := if slot.raw.seq ≠ st1.expected_seq then
                   { st1 with gap_count := st1.gap_count + 1 }
                 else st1
      { st' with expected_seq := uadd slot.raw.seq 1 }
  let latency_ns := usub now_ns slot.rx_ts
  let latency_us := latency_ns / 1000
  if latency_us < 1000 then
    { st2 with latency_buckets := Function.update st2.latency_buckets latency_us (st2.latency_buckets latency_us + 1) }
  else
    { st2 with latency_buckets := Function.update st2.latency_buckets 1000 (st2.latency_buckets 1000 + 1) }

/-- `IngestionStats::print_periodic_stats`: formats counters to stdout;
it reads but never writes state, so it is the identity on the model. -/
def IngestionStats.print_periodic_stats (st : IngestionStats) : IngestionStats :=
  st

/-- `IngestionStats::check_periodic_flush` (src/ingestion.cpp lines 68-74):
if at least one whole second elapsed since `last_flush_`
(`duration_cast<seconds>(now - last_flush_).count() >= 1`), print the
periodic report and set `last_flush_ = now`. -/
def IngestionStats.check_periodic_flush (st : IngestionStats) (now : Nat) :
    IngestionStats :=
  if (now - st.last_flush) / 1000000000 ≥ 1 then
    { st.print_periodic_stats with last_flush := now }
  else
    st

/-- `MessageParser::process_complete_message` (src/ingestion.cpp lines
140-148): compose the slot from the record and its receive timestamp, try
to push it; a failed push records a drop, a successful one a received
message. -/
def process_complete_message (msg : Msg) (timestamp : Nat) (ring : RingBuffer Slot)
    (stats : IngestionStats) : RingBuffer Slot × IngestionStats :=
  let p := ring.try_push { raw := msg, rx_ts := timestamp }
  if p.1 then (p.2, stats.record_message_received)
  else (p.2, stats.record_message_dropped)

/-- The emission loop of `parse_bytes` seen at the counter level: each
complete record is handed to `process_complete_message` with its
`get_timestamp_ns()` value. -/
def process_messages_loop (ring : RingBuffer Slot) (stats : IngestionStats) :
    List (Msg × Nat) → RingBuffer Slot × IngestionStats
  | [] => (ring, stats)
  | (m, t) :: rest =>
    let p := process_complete_message m t ring stats
    process_messages_loop p.1 p.2 rest

/-- **C5 (counterexample).** A state whose 5 µs bin holds 3 samples and
whose last flush is 2 s old: the periodic flush fires
(`(now − last_flush)/1e9 = 2 ≥ 1`), yet after `check_periodic_flush` the
bin still holds 3 — the histogram is not zeroed, refuting the claim that
after the periodic report all 1001 bins are zero. -/
theorem C5_counterexample :
    ((2000000000 - (IngestionStats.init 0).last_flush) / 1000000000 ≥ 1) ∧
    (({ IngestionStats.init 0 with
          latency_buckets := Function.update (fun _ => 0) 5 3
        }.check_periodic_flush 2000000000).latency_buckets 5 = 3) := by
  constructor
  · decide
  · rw [IngestionStats.check_periodic_flush, if_pos (by decide)]
    simp [IngestionStats.print_periodic_stats, Function.update]

/-- **C5 (amended).** When the periodic flush fires it emits the report and
sets `last_flush` to `now`, but no histogram bin is reset — the latency
buckets (and all counters) are unchanged, so each periodic report covers
all samples since start, not only the last one-second window. -/
theorem C5_flush_does_not_reset_histogram (st : IngestionStats) (now : Nat) :
    (st.check_periodic_flush now).latency_buckets = st.latency_buckets ∧
    (st.check_periodic_flush now).last_flush
      = (if (now - st.last_flush) / 1000000000 ≥ 1 then now else st.last_flush) ∧
    (st.check_periodic_flush now).messages_received = st.messages_received ∧
    (st.check_periodic_flush now).messages_processed = st.messages_processed ∧
    (st.check_periodic_flush now).messages_dropped = st.messages_dropped ∧
    (st.check_periodic_flush now).bytes_received = st.bytes_received ∧
    (st.check_periodic_flush now).gap_count = st.gap_count := by
  rw [IngestionStats.check_periodic_flush, IngestionStats.print_periodic_stats]
  split
  · simp_all
  · simp_all

/-- **C9.** Each complete record handed to `process_complete_message`
increments exactly one of `messages_received` / `messages_dropped` — the
former exactly when `ring.try_push` succeeds — and over any record list the
two counters gain exactly the record count in total, with `messages_received`
growing by exactly the ring's write-position advance (records actually
stored). -/
theorem C9_received_xor_dropped :
    (∀ (msg : Msg) (ts : Nat) (ring : RingBuffer Slot) (stats : IngestionStats),
      ((process_complete_message msg ts ring stats).2.messages_received
          = stats.messages_received + 1 ∧
        (process_complete_message msg ts ring stats).2.messages_dropped
          = stats.messages_dropped ∧
        (ring.try_push { raw := msg, rx_ts := ts }).1 = true) ∨
      ((process_complete_message msg ts ring stats).2.messages_received
          = stats.messages_received ∧
        (process_complete_message msg ts ring stats).2.messages_dropped
          = stats.messages_dropped + 1 ∧
        (ring.try_push { raw := msg, rx_ts := ts }).1 = false)) ∧
    (∀ (l : List (Msg × Nat)) (ring : RingBuffer Slot) (stats : IngestionStats),
      ring.Inv →
      ∃ k, k ≤ l.length ∧
        (process_messages_loop ring stats l).2.messages_received
          = stats.messages_received + k ∧
        (process_messages_loop ring stats l).2.messages_dropped
          = stats.messages_dropped + (l.length - k) ∧
        (process_messages_loop ring stats l).1.write_pos
          = uadd ring.write_pos k) := by
  constructor
  · intro msg ts ring stats
    by_cases hp : (ring.try_push { raw := msg, rx_ts := ts }).1 = true
    · left
      simp [process_complete_message, hp, IngestionStats.record_message_received]
    · right
      simp only [Bool.not_eq_true] at hp
      simp [process_complete_message, hp, IngestionStats.record_message_dropped]
  · intro l
    induction l with
    | nil =>
      intro ring stats hinv
      exact ⟨0, by simp [process_messages_loop, uadd, Nat.mod_eq_of_lt hinv.1]⟩
    | cons p rest ih =>
      intro ring stats hinv
      obtain ⟨m, t⟩ := p
      by_cases hp : (ring.try_push { raw := m, rx_ts := t }).1 = true
      · have hinv' : ((ring.try_push { raw := m, rx_ts := t }).2).Inv :=
          try_push_inv ring _ hinv
        obtain ⟨k, hk, hrecv, hdrop, hwrite⟩ :=
          ih (ring.try_push { raw := m, rx_ts := t }).2
            stats.record_message_received hinv'
        have hfull : ¬ usub ring.write_pos ring.read_pos ≥ ring.capacity := by
          intro hcon
          simp [RingBuffer.try_push, hcon] at hp
        have hw' : ((ring.try_push { raw := m, rx_ts := t }).2).write_pos
            = uadd ring.write_pos 1 := by
          simp [RingBuffer.try_push, hfull]
        refine ⟨k + 1, by simp; omega, ?_, ?_, ?_⟩
        · simp only [process_messages_loop, process_complete_message, hp, if_pos]
          rw [hrecv]
          simp [IngestionStats.record_message_received]
          omega
        · simp only [process_messages_loop, process_complete_message, hp, if_pos]
          rw [hdrop]
          simp [IngestionStats.record_message_received]
        · simp only [process_messages_loop, process_complete_message, hp, if_pos]
          rw [hwrite, hw', uadd_uadd, Nat.add_comm 1 k]
      · simp only [Bool.not_eq_true] at hp
        have hstate : (ring.try_push { raw := m, rx_ts := t }).2 = ring :=
          try_push_false_state ring _ hp
        have hpc : process_complete_message m t ring stats
            = (ring, stats.record_message_dropped) := by
          simp [process_complete_message, hp, hstate]
        obtain ⟨k, hk, hrecv, hdrop, hwrite⟩ :=
          ih ring stats.record_message_dropped hinv
        refine ⟨k, by simp; omega, ?_, ?_, ?_⟩
        · simp only [process_messages_loop, hpc]
          rw [hrecv]
          simp [IngestionStats.record_message_dropped]
        · simp only [process_messages_loop, hpc]
          rw [hdrop]
          simp [IngestionStats.record_message_dropped]
          omega
        · simp only [process_messages_loop, hpc]
          rw [hwrite]

/-- Witness for C9: on a full capacity-1 buffer the first record is
received, the second dropped; counters end at 1 and 1 and the write
position advanced by exactly one. -/
theorem C9_witness :
    ∃ k, k ≤ 2 ∧
      (process_messages_loop
        ({ capacity := 1, mask := 0, slots := [default], write_pos := 0,
           read_pos := 0, high_water_mark := 0 } : RingBuffer Slot)
        (IngestionStats.init 0)
        [(⟨3, 0, 1⟩, 5), (⟨4, 0, 1⟩, 6)]).2.messages_received
        = (IngestionStats.init 0).messages_received + k ∧
      (process_messages_loop
        ({ capacity := 1, mask := 0, slots := [default], write_pos := 0,
           read_pos := 0, high_water_mark := 0 } : RingBuffer Slot)
        (IngestionStats.init 0)
        [(⟨3, 0, 1⟩, 5), (⟨4, 0, 1⟩, 6)]).2.messages_dropped
        = (IngestionStats.init 0).messages_dropped + (2 - k) ∧
      (process_messages_loop
        ({ capacity := 1, mask := 0, slots := [default], write_pos := 0,
           read_pos := 0, high_water_mark := 0 } : RingBuffer Slot)
        (IngestionStats.init 0)
        [(⟨3, 0, 1⟩, 5), (⟨4, 0, 1⟩, 6)]).1.write_pos = uadd 0 k :=
  C9_received_xor_dropped.2 [(⟨3, 0, 1⟩, 5), (⟨4, 0, 1⟩, 6)] _ _
    ⟨by decide, by decide, ⟨0, by decide, by decide⟩, by decide, by decide, by decide⟩

theorem record_processed_gap_fields (st : IngestionStats) (slot : Slot) (now : Nat) :
    (st.record_message_processed slot now).first_message_seen = true ∧
    (st.record_message_processed slot now).expected_seq
      = (if st.first_message_seen then uadd slot.raw.seq 1 else slot.raw.seq) ∧
    (st.record_message_processed slot now).gap_count
      = (if st.first_message_seen ∧ slot.raw.seq ≠ st.expected_seq
         then st.gap_count + 1 else st.gap_count) := by
  simp only [IngestionStats.record_message_processed]
  by_cases h1 : st.first_message_seen <;>
    by_cases h2 : slot.raw.seq = st.expected_seq <;>
      by_cases hl : usub now slot.rx_ts / 1000 < 1000 <;>
        simp [h1, h2, hl]

/-- The consumer loop's repeated `record_message_processed` calls over a
list of (slot, `get_timestamp_ns()` value) pairs. -/
def IngestionStats.process_list (st : IngestionStats) :
    List (Slot × Nat) → IngestionStats
  | [] => st
  | p :: rest => IngestionStats.process_list (st.record_message_processed p.1 p.2) rest

theorem process_list_gap_seen (l : List (Slot × Nat)) :
    ∀ st : IngestionStats, st.first_message_seen = true →
      (st.process_list l).gap_count
        = st.gap_count
          + List.countP (fun q => q.2 != q.1)
              (List.zip (st.expected_seq :: l.map (fun p => uadd p.1.raw.seq 1))
                        (l.map (fun p => p.1.raw.seq))) ∧
      (st.process_list l).expected_seq
        = ((st.expected_seq :: l.map (fun p => uadd p.1.raw.seq 1)).getLast?).getD 0 ∧
      (st.process_list l).first_message_seen = true := by
  induction l with
  | nil =>
    intro st h
    simp [IngestionStats.process_list, h]
  | cons p rest ih =>
    intro st h
    obtain ⟨hfseen, hexp, hgap⟩ := record_processed_gap_fields st p.1 p.2
    simp only [h, if_true, reduceIte] at hexp
    rw [IngestionStats.process_list]
    obtain ⟨ihgap, ihexp, ihseen⟩ := ih (st.record_message_processed p.1 p.2) hfseen
    refine ⟨?_, ?_, ihseen⟩
    · rw [ihgap, hexp, hgap, h]
      simp only [List.map_cons, List.zip_cons_cons, List.countP_cons]
      by_cases h2 : p.1.raw.seq = st.expected_seq <;> simp [h2] <;> omega
    · rw [ihexp, hexp]
      simp only [List.map_cons]
      rw [List.getLast?_cons_cons]

/-! ## Per-feed monitor (`src/multi_feed_ingestion.cpp`, `FeedMonitor`) -/

/-- `mdfh::FeedConfig`: only the fields the embedded `FeedMonitor` methods
read are carried (`heartbeat_interval_ms` and `timeout_multiplier`, both
`std::uint32_t`); the network/identity fields play no role in the verified
paths. -/
structure FeedConfig where
  heartbeat_interval_ms : Nat
  timeout_multiplier : Nat
deriving DecidableEq

/-- `mdfh::FeedStatus`. -/
inductive FeedStatus where
  | CONNECTING
  | HEALTHY
  | DEGRADED
  | DEAD
  | FAILED
deriving DecidableEq

/-- `mdfh::FeedMonitor` state: atomic status (initialized `CONNECTING`),
`std::uint64_t` counters, gap-tracking fields, and the
`last_message_time_` time point (nanoseconds). -/
structure FeedMonitor where
  config : FeedConfig
  status : FeedStatus
  messages_received : Nat
  bytes_received : Nat
  sequence_gaps : Nat
  last_sequence : Nat
  last_message_time : Nat
  expected_sequence : Nat
  first_message_seen : Bool

/-- `FeedMonitor::FeedMonitor(config)`: member initializers zero the
counters, status starts `CONNECTING`, and the constructor stores
`steady_clock::now()` into `last_message_time_`. -/
def FeedMonitor.init (config : FeedConfig) (now : Nat) : FeedMonitor :=
  { config := config, status := FeedStatus.CONNECTING, messages_received := 0,
    bytes_received := 0, sequence_gaps := 0, last_sequence := 0,
    last_message_time := now, expected_sequence := 0, first_message_seen := false }

/-- `FeedMonitor::record_message` (src/multi_feed_ingestion.cpp lines
196-220): bump the message/byte counters, refresh `last_message_time_`,
run the gap tracking (first message: `expected_sequence_ = msg.seq`; later:
gap `+1` when `msg.seq != expected_sequence_`, then
`expected_sequence_ = msg.seq + 1`), store `last_sequence_`, and promote
`CONNECTING` to `HEALTHY`. -/
def FeedMonitor.record_message (m : FeedMonitor) (msg : Msg) (bytes : Nat)
    (now : Nat) : FeedMonitor :=
  let m1 := { m with messages_received := m.messages_received + 1,
                     bytes_received := m.bytes_received + bytes,
                     last_message_time := now }
  let m2 :=
    if !m1.first_message_seen then
      { m1 with expected_sequence := msg.seq, first_message_seen := true }
    else
      let m' := if msg.seq ≠ m1.expected_sequence then
                  { m1 with sequence_gaps := m1.sequence_gaps + 1 }
                else m1
      { m' with expected_sequence := uadd msg.seq 1 }
  let m3 := { m2 with last_sequence := msg.seq }
  if m3.status = FeedStatus.CONNECTING then
    { m3 with status := FeedStatus.HEALTHY }
  else
    m3

/-- `FeedMonitor::check_health` (src/multi_feed_ingestion.cpp lines
230-245): `elapsed` is `now − last_message_time_` in milliseconds;
`timeout_ms = heartbeat_interval_ms * timeout_multiplier` in `uint32`
arithmetic.  Only a currently `HEALTHY` or `DEGRADED` feed is touched:
it becomes `DEAD` when `elapsed > timeout_ms`, else `DEGRADED` when
`elapsed > heartbeat_interval_ms * 2` (`uint32` arithmetic); otherwise —
and for every other current status — the state is left unchanged. -/
def FeedMonitor.check_health (m : FeedMonitor) (now : Nat) : FeedMonitor :=
  let elapsed_ms := (now - m.last_message_time) / 1000000
  let timeout_ms := (m.config.heartbeat_interval_ms * m.config.timeout_multiplier) % U32
  if m.status = FeedStatus.HEALTHY ∨ m.status = FeedStatus.DEGRADED then
    if elapsed_ms > timeout_ms then
      { m with status := FeedStatus.DEAD }
    else if elapsed_ms > (m.config.heartbeat_interval_ms * 2) % U32 then
      { m with status := FeedStatus.DEGRADED }
    else
      m
  else
    m

/-- Repeated `record_message` calls over a list of
(`msg`, byte count, `now`) triples. -/
def FeedMonitor.record_list (m : FeedMonitor) :
    List (Msg × Nat × Nat) → FeedMonitor
  | [] => m
  | e :: rest => FeedMonitor.record_list (m.record_message e.1 e.2.1 e.2.2) rest

theorem record_message_gap_fields (m : FeedMonitor) (msg : Msg) (bytes now : Nat) :
    (m.record_message msg bytes now).first_message_seen = true ∧
    (m.record_message msg bytes now).expected_sequence
      = (if m.first_message_seen then uadd msg.seq 1 else msg.seq) ∧
    (m.record_message msg bytes now).sequence_gaps
      = (if m.first_message_seen ∧ msg.seq ≠ m.expected_sequence
         then m.sequence_gaps + 1 else m.sequence_gaps) := by
  simp only [FeedMonitor.record_message]
  by_cases h1 : m.first_message_seen <;>
    by_cases h2 : msg.seq = m.expected_sequence <;>
      by_cases hs : m.status = FeedStatus.CONNECTING <;>
        simp [h1, h2, hs]

theorem record_list_gap_seen (l : List (Msg × Nat × Nat)) :
    ∀ m : FeedMonitor, m.first_message_seen = true →
      (m.record_list l).sequence_gaps
        = m.sequence_gaps
          + List.countP (fun q => q.2 != q.1)
              (List.zip (m.expected_sequence :: l.map (fun e => uadd e.1.seq 1))
                        (l.map (fun e => e.1.seq))) ∧
      (m.record_list l).expected_sequence
        = ((m.expected_sequence :: l.map (fun e => uadd e.1.seq 1)).getLast?).getD 0 ∧
      (m.record_list l).first_message_seen = true := by
  induction l with
  | nil =>
    intro m h
    simp [FeedMonitor.record_list, h]
  | cons e rest ih =>
    intro m h
    obtain ⟨hfseen, hexp, hgap⟩ := record_message_gap_fields m e.1 e.2.1 e.2.2
    simp only [h, if_true, reduceIte] at hexp
    rw [FeedMonitor.record_list]
    obtain ⟨ihgap, ihexp, ihseen⟩ := ih (m.record_message e.1 e.2.1 e.2.2) hfseen
    refine ⟨?_, ?_, ihseen⟩
    · rw [ihgap, hexp, hgap, h]
      simp only [List.map_cons, List.zip_cons_cons, List.countP_cons]
      by_cases h2 : e.1.seq = m.expected_sequence <;> simp [h2] <;> omega
    · rw [ihexp, hexp]
      simp only [List.map_cons]
      rw [List.getLast?_cons_cons]

/-- **C1 (amended).** For both `IngestionStats::record_message_processed`
and `FeedMonitor::record_message`: after the first record the tracked
next-expected value equals `s1` (not `s1 + 1`); on each subsequent record
with sequence number `s`, the gap counter increases by exactly one (not by
`|s − next_expected|`) when `s` differs from the tracked value, and the
tracked value becomes `(s + 1) mod 2^64`.  Hence after all records the gap
counter equals the number of indices at which the arriving sequence number
differs from the tracked value (`s1` for the second record, `sᵢ + 1`
afterwards), and the final tracked value is the last element of the
expectation chain `s1, s2+1, …, sn+1`. -/
theorem C1_gap_tracking (t : Nat) (p : Slot × Nat) (l : List (Slot × Nat))
    (cfg : FeedConfig) (t2 : Nat) (e : Msg × Nat × Nat) (l2 : List (Msg × Nat × Nat)) :
    (((IngestionStats.init t).process_list (p :: l)).gap_count
      = List.countP (fun q => q.2 != q.1)
          (List.zip (p.1.raw.seq :: l.map (fun q => uadd q.1.raw.seq 1))
                    (l.map (fun q => q.1.raw.seq)))) ∧
    (((IngestionStats.init t).process_list (p :: l)).expected_seq
      = ((p.1.raw.seq :: l.map (fun q => uadd q.1.raw.seq 1)).getLast?).getD 0) ∧
    (((FeedMonitor.init cfg t2).record_list (e :: l2)).sequence_gaps
      = List.countP (fun q => q.2 != q.1)
          (List.zip (e.1.seq :: l2.map (fun q => uadd q.1.seq 1))
                    (l2.map (fun q => q.1.seq)))) ∧
    (((FeedMonitor.init cfg t2).record_list (e :: l2)).expected_sequence
      = ((e.1.seq :: l2.map (fun q => uadd q.1.seq 1)).getLast?).getD 0) := by
  obtain ⟨hf1, he1, hg1⟩ := record_processed_gap_fields (IngestionStats.init t) p.1 p.2
  rw [show (IngestionStats.init t).first_message_seen = false from rfl] at he1 hg1
  simp only [Bool.false_eq_true, if_false, false_and] at he1 hg1
  obtain ⟨hgap, hexp, -⟩ := process_list_gap_seen l _ hf1
  obtain ⟨hf1m, he1m, hg1m⟩ :=
    record_message_gap_fields (FeedMonitor.init cfg t2) e.1 e.2.1 e.2.2
  rw [show (FeedMonitor.init cfg t2).first_message_seen = false from rfl] at he1m hg1m
  simp only [Bool.false_eq_true, if_false, false_and] at he1m hg1m
  obtain ⟨hgapm, hexpm, -⟩ := record_list_gap_seen l2 _ hf1m
  refine ⟨?_, ?_, ?_, ?_⟩
  · simp only [IngestionStats.process_list]
    rw [hgap, he1, hg1]
    simp [IngestionStats.init]
  · simp only [IngestionStats.process_list]
    rw [hexp, he1]
  · simp only [FeedMonitor.record_list]
    rw [hgapm, he1m, hg1m]
    simp [FeedMonitor.init]
  · simp only [FeedMonitor.record_list]
    rw [hexpm, he1m]

/-- **C1 (counterexample).** Sequence numbers `1, 2` with no gap: the claim
as stated predicts `next_expected = 1 + 1 = 2` after the first record and a
final gap counter of `Σ|sᵢ₊₁ − (sᵢ+1)| = |2 − 2| = 0`, but the code sets
`expected = 1` after the first record and then counts `2 ≠ 1` as a gap,
ending with gap counter `1` — in both `IngestionStats` and `FeedMonitor`. -/
theorem C1_counterexample :
    ((IngestionStats.init 0).process_list
        [({ raw := { seq := 1, px_bits := 0, qty := 1 }, rx_ts := 0 }, 0),
         ({ raw := { seq := 2, px_bits := 0, qty := 1 }, rx_ts := 0 }, 0)]).gap_count
      = 1 ∧
    Int.natAbs ((2 : Int) - ((1 : Int) + 1)) = 0 ∧
    ((IngestionStats.init 0).process_list
        [({ raw := { seq := 1, px_bits := 0, qty := 1 }, rx_ts := 0 }, 0)]).expected_seq
      = 1 ∧
    ((FeedMonitor.init { heartbeat_interval_ms := 1000, timeout_multiplier := 3 } 0).record_list
        [({ seq := 1, px_bits := 0, qty := 1 }, 20, 0),
         ({ seq := 2, px_bits := 0, qty := 1 }, 20, 0)]).sequence_gaps = 1 := by
  refine ⟨?_, by decide, ?_, ?_⟩ <;> decide

/-- **C7 (amended).** Each health-check run computes
`age = (now − last_message_time)` in ms and acts only when the feed is
currently `Healthy` or `Degraded`: it sets `Dead` when
`age > heartbeat_interval × timeout_multiplier` (uint32 product), else
`Degraded` when `age > heartbeat_interval × 2`, and otherwise leaves the
state unchanged.  A feed in any other status is never touched, and —
contrary to the claim's recovery clause — `check_health` never sets a
`Degraded` feed back to `Healthy`: its result is `Healthy` only if the
status already was. -/
theorem C7_check_health (m : FeedMonitor) (now : Nat) :
    ((m.status = FeedStatus.HEALTHY ∨ m.status = FeedStatus.DEGRADED) →
      (((now - m.last_message_time) / 1000000
          > (m.config.heartbeat_interval_ms * m.config.timeout_multiplier) % U32 →
        m.check_health now = { m with status := FeedStatus.DEAD }) ∧
       (¬ ((now - m.last_message_time) / 1000000
          > (m.config.heartbeat_interval_ms * m.config.timeout_multiplier) % U32) →
        (now - m.last_message_time) / 1000000 > (m.config.heartbeat_interval_ms * 2) % U32 →
        m.check_health now = { m with status := FeedStatus.DEGRADED }) ∧
       (¬ ((now - m.last_message_time) / 1000000
          > (m.config.heartbeat_interval_ms * m.config.timeout_multiplier) % U32) →
        ¬ ((now - m.last_message_time) / 1000000
          > (m.config.heartbeat_interval_ms * 2) % U32) →
        m.check_health now = m))) ∧
    (¬ (m.status = FeedStatus.HEALTHY ∨ m.status = FeedStatus.DEGRADED) →
      m.check_health now = m) ∧
    ((m.check_health now).status = FeedStatus.HEALTHY → m.status = FeedStatus.HEALTHY) := by
  refine ⟨fun hs => ⟨fun h1 => ?_, fun h1 h2 => ?_, fun h1 h2 => ?_⟩, fun hs => ?_, ?_⟩
  · rw [FeedMonitor.check_health]
    simp only [if_pos hs, if_pos h1]
  · rw [FeedMonitor.check_health]
    simp only [if_pos hs, if_neg h1, if_pos h2]
  · rw [FeedMonitor.check_health]
    simp only [if_pos hs, if_neg h1, if_neg h2]
  · rw [FeedMonitor.check_health]
    simp only [if_neg hs]
  · rw [FeedMonitor.check_health]
    by_cases hs : m.status = FeedStatus.HEALTHY ∨ m.status = FeedStatus.DEGRADED
    · simp only [if_pos hs]
      split
      · intro hcon
        cases hcon
      · split
        · intro hcon
          cases hcon
        · intro hh
          exact hh
    · simp only [if_neg hs]
      intro hh
      exact hh

/-- Witness for C7: a Degraded feed with heartbeat 1000 ms and multiplier 3
whose last message is 4000 ms old is marked Dead, and a Healthy feed whose
age is 2500 ms (above 2×heartbeat but within the timeout) is marked
Degraded. -/
theorem C7_witness :
    FeedMonitor.check_health
      { config := { heartbeat_interval_ms := 1000, timeout_multiplier := 3 },
        status := FeedStatus.DEGRADED, messages_received := 9, bytes_received := 180,
        sequence_gaps := 0, last_sequence := 9, last_message_time := 0,
        expected_sequence := 10, first_message_seen := true } 4000000000
      = { config := { heartbeat_interval_ms := 1000, timeout_multiplier := 3 },
          status := FeedStatus.DEAD, messages_received := 9, bytes_received := 180,
          sequence_gaps := 0, last_sequence := 9, last_message_time := 0,
          expected_sequence := 10, first_message_seen := true } ∧
    FeedMonitor.check_health
      { config := { heartbeat_interval_ms := 1000, timeout_multiplier := 3 },
        status := FeedStatus.HEALTHY, messages_received := 9, bytes_received := 180,
        sequence_gaps := 0, last_sequence := 9, last_message_time := 0,
        expected_sequence := 10, first_message_seen := true } 2500000000
      = { config := { heartbeat_interval_ms := 1000, timeout_multiplier := 3 },
          status := FeedStatus.DEGRADED, messages_received := 9, bytes_received := 180,
          sequence_gaps := 0, last_sequence := 9, last_message_time := 0,
          expected_sequence := 10, first_message_seen := true } := by
  constructor
  · exact ((C7_check_health _ 4000000000).1 (Or.inr rfl)).1 (by decide)
  · exact ((C7_check_health _ 2500000000).1 (Or.inl rfl)).2.1 (by decide) (by decide)

/-- **C7 (counterexample).** A `Degraded` feed with a fresh message
(`age = 0 ≤ heartbeat_interval`) stays `Degraded` — the claimed recovery to
`Healthy` does not exist in the code — and a `Connecting` feed with an age
far beyond `heartbeat × multiplier` stays `Connecting` instead of becoming
`Dead`, because `check_health` only acts on `Healthy`/`Degraded` feeds. -/
theorem C7_counterexample :
    (FeedMonitor.check_health
      { config := { heartbeat_interval_ms := 1000, timeout_multiplier := 3 },
        status := FeedStatus.DEGRADED, messages_received := 9, bytes_received := 180,
        sequence_gaps := 0, last_sequence := 9, last_message_time := 0,
        expected_sequence := 10, first_message_seen := true } 0).status
      = FeedStatus.DEGRADED ∧
    ((0 : Nat) - 0) / 1000000 ≤ 1000 ∧
    (FeedMonitor.check_health
      { config := { heartbeat_interval_ms := 1000, timeout_multiplier := 3 },
        status := FeedStatus.CONNECTING, messages_received := 0, bytes_received := 0,
        sequence_gaps := 0, last_sequence := 0, last_message_time := 0,
        expected_sequence := 0, first_message_seen := false } 9000000000).status
      = FeedStatus.CONNECTING ∧
    ((9000000000 : Nat) - 0) / 1000000
      > (1000 * 3) % U32 := by
  refine ⟨?_, by decide, ?_, by decide⟩
  · rw [FeedMonitor.check_health]
    simp only [if_pos (Or.inr rfl)]
    norm_num [U32]
  · rw [FeedMonitor.check_health]
    simp

/-! ## Percentile lookup (`IngestionStats::calculate_percentile`) -/

/-- Cumulative histogram count over bins `0..b` inclusive. -/
def cum_count (buckets : Nat → Nat) (b : Nat) : Nat :=
  ((List.range (b + 1)).map buckets).sum

/-- The scan loop of `IngestionStats::calculate_percentile`
(src/ingestion.cpp lines 126-131): accumulate bucket counts from bin 0
upward; at the first bin where `count >= target` return the bin index
(capped to 1000 for the overflow bin); if the loop exhausts all 1001 bins,
fall through to `return 0`. -/
def percentile_loop (buckets : Nat → Nat) (target count i : Nat) : Nat :=
  if h : i < 1001 then
    let count2 := count + buckets i
    if count2 ≥ target then (if i ≥ 1000 then 1000 else i)
    else percentile_loop buckets target count2 (i + 1)
  else 0
termination_by 1001 - i
decreasing_by omega

/-- `IngestionStats::calculate_percentile` (src/ingestion.cpp lines
122-133).  The C++ computes
`target = static_cast<uint64>(total_samples * percentile)` in `double`
arithmetic, truncating toward zero; the model performs the same truncation
in exact rational arithmetic (identical whenever the product is exactly
representable in `double`, as at every concrete input used here). -/
def calculate_percentile (buckets : Nat → Nat) (percentile : ℚ)
    (total_samples : Nat) : Nat :=
  percentile_loop buckets (⌊(total_samples : ℚ) * percentile⌋).toNat 0 0

theorem sum_range_succ_map (f : Nat → Nat) (n : Nat) :
    ((List.range (n + 1)).map f).sum = ((List.range n).map f).sum + f n := by
  rw [List.range_succ]
  simp

theorem percentile_loop_correct (buckets : Nat → Nat) (target : Nat) :
    ∀ (fuel i count : Nat), i + fuel = 1001 →
      count = ((List.range i).map buckets).sum →
      (∀ j, j < i → cum_count buckets j < target) →
      target ≤ ((List.range 1001).map buckets).sum →
      (percentile_loop buckets target count i ≤ 1000 ∧
       target ≤ cum_count buckets (percentile_loop buckets target count i) ∧
       ∀ j, j < percentile_loop buckets target count i →
         cum_count buckets j < target) := by
  intro fuel
  induction fuel with
  | zero =>
    intro i count hi hcount hprev hreach
    exfalso
    have h1000 : cum_count buckets 1000 < target := hprev 1000 (by omega)
    rw [cum_count] at h1000
    norm_num at h1000
    omega
  | succ fuel ih =>
    intro i count hi hcount hprev hreach
    rw [percentile_loop, dif_pos (by omega)]
    have hcount2 : count + buckets i = ((List.range (i + 1)).map buckets).sum := by
      rw [sum_range_succ_map, hcount]
    by_cases hge : count + buckets i ≥ target
    · rw [if_pos hge]
      have hret : (if i ≥ 1000 then 1000 else i) = i := by
        split <;> omega
      rw [hret]
      refine ⟨by omega, ?_, hprev⟩
      rw [cum_count, ← hcount2]
      exact hge
    · rw [if_neg hge]
      by_cases hi1000 : i = 1000
      · exfalso
        subst hi1000
        norm_num at hcount2
        omega
      · exact ih (i + 1) (count + buckets i) (by omega) hcount2
          (fun j hj => by
            rcases Nat.lt_or_ge j i with hji | hji
            · exact hprev j hji
            · have hj_eq : j = i := by omega
              rw [hj_eq, cum_count, ← hcount2]
              omega)
          hreach

/-- **C4 (amended).** For every non-empty histogram (`N > 0` total samples)
and percentile `p ∈ (0,1)`, `calculate_percentile` returns the smallest bin
`b` whose cumulative count reaches the truncated target `⌊N·p⌋` — not
`⌈N·p⌉` as claimed: `cumcount(b) ≥ ⌊N·p⌋` and every earlier bin is below
the target (so when `⌊N·p⌋ = 0`, e.g. `N·p < 1`, bin 0 is returned
immediately).  The result never exceeds 1000, the overflow bin. -/
theorem C4_percentile_truncated_target (buckets : Nat → Nat) (p : ℚ) (N : Nat)
    (hp0 : 0 < p) (hp1 : p < 1) (hpos : 0 < N)
    (hN : N = ((List.range 1001).map buckets).sum) :
    calculate_percentile buckets p N ≤ 1000 ∧
    (⌊(N : ℚ) * p⌋).toNat ≤ cum_count buckets (calculate_percentile buckets p N) ∧
    ∀ j, j < calculate_percentile buckets p N →
      cum_count buckets j < (⌊(N : ℚ) * p⌋).toNat := by
  have hlt : (⌊(N : ℚ) * p⌋ : ℤ) < (N : ℤ) := by
    have hmul : (N : ℚ) * p < (N : ℚ) := by
      have hN0 : (0 : ℚ) < (N : ℚ) := by exact_mod_cast hpos
      calc (N : ℚ) * p < (N : ℚ) * 1 := by
            exact mul_lt_mul_of_pos_left hp1 hN0
        _ = (N : ℚ) := mul_one _
    rw [Int.floor_lt]
    exact_mod_cast hmul
  have htarget : (⌊(N : ℚ) * p⌋).toNat < N := by omega
  exact percentile_loop_correct buckets (⌊(N : ℚ) * p⌋).toNat 1001 0 0 (by omega)
    (by simp) (by omega) (by omega)

set_option maxRecDepth 16000 in
/-- Witness for C4 (amended): one sample in bin 5, `p = 1/2`: the truncated
target is `⌊0.5⌋ = 0`, and the theorem's bounds hold at the returned bin. -/
theorem C4_witness :
    calculate_percentile (fun i => if i = 5 then 1 else 0) (1/2 : ℚ) 1 ≤ 1000 ∧
    (⌊((1 : Nat) : ℚ) * (1/2)⌋).toNat
      ≤ cum_count (fun i => if i = 5 then 1 else 0)
          (calculate_percentile (fun i => if i = 5 then 1 else 0) (1/2 : ℚ) 1) ∧
    ∀ j, j < calculate_percentile (fun i => if i = 5 then 1 else 0) (1/2 : ℚ) 1 →
      cum_count (fun i => if i = 5 then 1 else 0) j
        < (⌊((1 : Nat) : ℚ) * (1/2)⌋).toNat :=
  C4_percentile_truncated_target (fun i => if i = 5 then 1 else 0) (1/2) 1
    (by norm_num) (by norm_num) (by norm_num) (by decide)

/-- **C4 (counterexample).** One sample, in bin 5, `p = 1/2`: the claim as
stated requires the returned bin `b` to satisfy
`cumcount(b) ≥ ⌈N·p⌉ = ⌈0.5⌉ = 1` (which would force `b = 5`), but the code
truncates the target to `⌊0.5⌋ = 0` and returns bin 0, whose cumulative
count is 0. -/
theorem C4_counterexample :
    calculate_percentile (fun i => if i = 5 then 1 else 0) (1/2 : ℚ) 1 = 0 ∧
    cum_count (fun i => if i = 5 then 1 else 0) 0 = 0 ∧
    Nat.ceil (((1 : Nat) : ℚ) * (1/2)) = 1 := by
  refine ⟨?_, by decide, ?_⟩
  · have htarget : (⌊((1 : Nat) : ℚ) * (1/2 : ℚ)⌋).toNat = 0 := by norm_num
    rw [calculate_percentile, htarget, percentile_loop]
    norm_num
  · rw [show (((1 : Nat) : ℚ) * (1/2)) = 1/2 by norm_num]
    rw [Nat.ceil_eq_iff (by norm_num)]
    norm_num

/-! ## Zero-copy pending-packet pool (`src/kernel_bypass.cpp`,
`BypassIngestionClient`)

The packet handler's parsing side effects touch the separate ring/stats
state modelled above; the pool claim concerns only the release-token
lifecycle, so the embedding carries the pool fields plus a ghost log
`released` recording, in order, every argument passed to
`bypass_client_->release_packet`. -/

/-- `BypassIngestionClient::MAX_PENDING_PACKETS`. -/
def MAX_PENDING_PACKETS : Nat := 1024

/-- Pool state: the 1024-slot token array (`pending_packets_`, indexed
through `pending_mask_ = 1023`), the `std::size_t` positions, and the ghost
release log.  A release token (opaque `void*`) is a `Nat`; `0` is
`nullptr`. -/
structure BypassIngestionClient where
  pending_packets : Nat → Nat
  pending_write_pos : Nat
  pending_read_pos : Nat
  released : List Nat

/-- Constructor state: zeroed positions, empty log. -/
def BypassIngestionClient.init : BypassIngestionClient :=
  { pending_packets := fun _ => 0, pending_write_pos := 0, pending_read_pos := 0,
    released := [] }

/-- `BypassIngestionClient::try_add_pending_packet` (src/kernel_bypass.cpp
lines 934-949): full when `write_pos - read_pos >= MAX_PENDING_PACKETS`,
else store the context at `write_pos & pending_mask_` and publish
`write_pos + 1`. -/
def BypassIngestionClient.try_add_pending_packet (st : BypassIngestionClient)
    (context : Nat) : Bool × BypassIngestionClient :=
  let write_pos := st.pending_write_pos
  let read_pos := st.pending_read_pos
  if usub write_pos read_pos ≥ MAX_PENDING_PACKETS then
    (false, st)
  else
    (true, { st with
      pending_packets := Function.update st.pending_packets (write_pos &&& 1023) context,
      pending_write_pos := uadd write_pos 1 })

/-- `BypassIngestionClient::try_get_pending_packet` (lines 951-965): empty
when `read_pos == write_pos`, else return the context at
`read_pos & pending_mask_` and publish `read_pos + 1`. -/
def BypassIngestionClient.try_get_pending_packet (st : BypassIngestionClient) :
    Option Nat × BypassIngestionClient :=
  let read_pos := st.pending_read_pos
  let write_pos := st.pending_write_pos
  if read_pos = write_pos then
    (none, st)
  else
    (some (st.pending_packets (read_pos &&& 1023)),
     { st with pending_read_pos := uadd read_pos 1 })

/-- The packet-lifecycle block of `BypassIngestionClient::packet_handler`
(lines 908-922): with zero-copy active and a non-null context, enqueue the
token, releasing immediately if the pool is full; without zero-copy a
non-null token is released immediately; a null context is never released. -/
def BypassIngestionClient.packet_handler (st : BypassIngestionClient)
    (zero_copy : Bool) (context : Nat) : BypassIngestionClient :=
  if zero_copy ∧ context ≠ 0 then
    let p := st.try_add_pending_packet context
    if p.1 then p.2
    else { p.2 with released := p.2.released ++ [context] }
  else if context ≠ 0 then
    { st with released := st.released ++ [context] }
  else
    st

/-- The body of `cleanup_processed_packets`' while loop, with explicit
fuel: dequeue and release until `try_get_pending_packet` yields null. -/
def BypassIngestionClient.cleanup_loop :
    Nat → BypassIngestionClient → BypassIngestionClient
  | 0, st => st
  | fuel + 1, st =>
    match h : st.try_get_pending_packet with
    | (none, st2) => st2
    | (some context, st2) =>
      BypassIngestionClient.cleanup_loop fuel
        { st2 with released := st2.released ++ [context] }

/-- `BypassIngestionClient::cleanup_processed_packets` (lines 924-932):
`while ((context = try_get_pending_packet()) != nullptr)
release_packet(context);` — in the single-threaded model the loop dequeues
exactly `size` times, so the pool size serves as structural fuel. -/
def BypassIngestionClient.cleanup_processed_packets (st : BypassIngestionClient) :
    BypassIngestionClient :=
  BypassIngestionClient.cleanup_loop
    (usub st.pending_write_pos st.pending_read_pos) st

/-- One externally visible pool event: a packet delivered to the handler
(with the zero-copy flag and its release token), or a run of the cleanup
routine. -/
inductive BypassEvent where
  | packet (zero_copy : Bool) (context : Nat)
  | cleanup

/-- Execute one event. -/
def BypassIngestionClient.step (st : BypassIngestionClient) :
    BypassEvent → BypassIngestionClient
  | .packet z c => st.packet_handler z c
  | .cleanup => st.cleanup_processed_packets

/-- Execute a trace of events in order. -/
def BypassIngestionClient.run (st : BypassIngestionClient) :
    List BypassEvent → BypassIngestionClient
  | [] => st
  | e :: es => BypassIngestionClient.run (st.step e) es

/-- The release tokens delivered to the handler over a trace (non-null
contexts of packet events, in order). -/
def delivered_tokens : List BypassEvent → List Nat
  | [] => []
  | BypassEvent.packet _ c :: es =>
    if c ≠ 0 then c :: delivered_tokens es else delivered_tokens es
  | BypassEvent.cleanup :: es => delivered_tokens es

/-- The tokens currently queued in the pool, oldest first. -/
def pendingTokens (st : BypassIngestionClient) : List Nat :=
  (List.range (usub st.pending_write_pos st.pending_read_pos)).map
    (fun i => st.pending_packets ((st.pending_read_pos + i) &&& 1023))

/-- Pool well-formedness: `size_t` positions and size at most 1024. -/
def PoolInv (st : BypassIngestionClient) : Prop :=
  st.pending_write_pos < U64 ∧ st.pending_read_pos < U64 ∧
  usub st.pending_write_pos st.pending_read_pos ≤ MAX_PENDING_PACKETS

theorem land_1023 (x : Nat) : x &&& 1023 = x % 1024 := by
  have h := Nat.and_pow_two_sub_one_eq_mod x 10
  norm_num at h
  exact h

theorem pool_wp_mod (wp rp size : Nat) (hw : wp < U64) (hr : rp < U64)
    (hsz : usub wp rp = size) : wp % 1024 = (rp + size) % 1024 := by
  simp only [usub, U64] at *
  omega

theorem try_add_spec (st : BypassIngestionClient) (ctx : Nat) (h : PoolInv st)
    (hroom : usub st.pending_write_pos st.pending_read_pos < MAX_PENDING_PACKETS) :
    (st.try_add_pending_packet ctx).1 = true ∧
    PoolInv (st.try_add_pending_packet ctx).2 ∧
    ((st.try_add_pending_packet ctx).2).released = st.released ∧
    pendingTokens (st.try_add_pending_packet ctx).2 = pendingTokens st ++ [ctx] := by
  obtain ⟨hw, hr, hsz⟩ := h
  have hguard : ¬ usub st.pending_write_pos st.pending_read_pos ≥ MAX_PENDING_PACKETS := by
    omega
  have hmod := pool_wp_mod st.pending_write_pos st.pending_read_pos
    (usub st.pending_write_pos st.pending_read_pos) hw hr rfl
  simp only [BypassIngestionClient.try_add_pending_packet, if_neg hguard]
  have hsz1 : usub (uadd st.pending_write_pos 1) st.pending_read_pos
      = usub st.pending_write_pos st.pending_read_pos + 1 := by
    rw [usub_uadd_left _ _ _ hr]
    apply Nat.mod_eq_of_lt
    simp only [MAX_PENDING_PACKETS, U64] at *
    omega
  refine ⟨by trivial, ⟨uadd_lt _ _, hr, ?_⟩, by trivial, ?_⟩
  · simp only [hsz1, MAX_PENDING_PACKETS] at *
    omega
  · simp only [pendingTokens, hsz1]
    rw [List.range_succ, List.map_append]
    congr 1
    · apply List.map_congr_left
      intro i hi
      rw [List.mem_range] at hi
      apply Function.update_noteq
      rw [land_1023, land_1023, hmod]
      simp only [MAX_PENDING_PACKETS] at *
      omega
    · simp only [List.map_cons, List.map_nil, List.cons.injEq, and_true]
      rw [land_1023, land_1023, ← hmod, Function.update_same]

theorem try_get_spec (st : BypassIngestionClient) (h : PoolInv st)
    (hne : usub st.pending_write_pos st.pending_read_pos ≠ 0) :
    (st.try_get_pending_packet).1
      = some (st.pending_packets (st.pending_read_pos &&& 1023)) ∧
    PoolInv (st.try_get_pending_packet).2 ∧
    ((st.try_get_pending_packet).2).released = st.released ∧
    usub ((st.try_get_pending_packet).2).pending_write_pos
        ((st.try_get_pending_packet).2).pending_read_pos
      = usub st.pending_write_pos st.pending_read_pos - 1 ∧
    pendingTokens st
      = st.pending_packets (st.pending_read_pos &&& 1023)
        :: pendingTokens (st.try_get_pending_packet).2 := by
  obtain ⟨hw, hr, hsz⟩ := h
  have hguard : st.pending_read_pos ≠ st.pending_write_pos := by
    intro hcon
    rw [Ne, usub_eq_zero_iff _ _ hw hr] at hne
    omega
  simp only [BypassIngestionClient.try_get_pending_packet, if_neg hguard]
  have hsz1 : usub st.pending_write_pos (uadd st.pending_read_pos 1)
      = usub st.pending_write_pos st.pending_read_pos - 1 :=
    usub_uadd_right _ _ 1 hw hr (by norm_num [U64]) (by omega)
  refine ⟨by trivial, ⟨hw, uadd_lt _ _, ?_⟩, by trivial, hsz1, ?_⟩
  · simp only [hsz1, MAX_PENDING_PACKETS] at *
    omega
  · simp only [pendingTokens, hsz1]
    have hexp : usub st.pending_write_pos st.pending_read_pos
        = (usub st.pending_write_pos st.pending_read_pos - 1) + 1 := by
      omega
    conv_lhs => rw [hexp]
    rw [List.range_succ_eq_map, List.map_cons, List.map_map]
    congr 1
    apply List.map_congr_left
    intro i hi
    simp only [Function.comp_apply]
    rw [land_1023, land_1023]
    congr 1
    simp only [uadd, U64] at *
    omega

theorem cleanup_loop_spec :
    ∀ (fuel : Nat) (st : BypassIngestionClient), PoolInv st →
      usub st.pending_write_pos st.pending_read_pos = fuel →
      PoolInv (BypassIngestionClient.cleanup_loop fuel st) ∧
      usub (BypassIngestionClient.cleanup_loop fuel st).pending_write_pos
          (BypassIngestionClient.cleanup_loop fuel st).pending_read_pos = 0 ∧
      (BypassIngestionClient.cleanup_loop fuel st).released
        = st.released ++ pendingTokens st := by
  intro fuel
  induction fuel with
  | zero =>
    intro st h hsz
    refine ⟨h, ?_, ?_⟩
    · simpa [BypassIngestionClient.cleanup_loop] using hsz
    · simp [BypassIngestionClient.cleanup_loop, pendingTokens, hsz]
  | succ fuel ih =>
    intro st h hsz
    obtain ⟨hget, hinv2, hrel2, hsz2, hpend⟩ := try_get_spec st h (by omega)
    rw [BypassIngestionClient.cleanup_loop]
    split
    · rename_i st2 heq
      rw [heq] at hget
      simp at hget
    · rename_i context st2 heq
      rw [heq] at hget hinv2 hrel2 hsz2 hpend
      simp only [Option.some.injEq] at hget hinv2 hrel2 hsz2 hpend
      have hinv3 : PoolInv { st2 with released := st2.released ++ [context] } := hinv2
      have hsz3 : usub ({ st2 with released := st2.released ++ [context]
          } : BypassIngestionClient).pending_write_pos
          ({ st2 with released := st2.released ++ [context]
          } : BypassIngestionClient).pending_read_pos = fuel := by
        show usub st2.pending_write_pos st2.pending_read_pos = fuel
        omega
      obtain ⟨ha, hb, hc⟩ := ih _ hinv3 hsz3
      refine ⟨ha, hb, ?_⟩
      rw [hc]
      show st2.released ++ [context] ++ pendingTokens st2
        = st.released ++ pendingTokens st
      rw [hrel2, hpend, ← hget]
      simp

theorem perm_snoc_mid (r p : List Nat) (c : Nat) :
    ((r ++ [c]) ++ p).Perm ((r ++ p) ++ [c]) := by
  rw [List.append_assoc, List.append_assoc]
  exact List.Perm.append_left r (List.perm_append_comm)

theorem packet_handler_spec (st : BypassIngestionClient) (z : Bool) (c : Nat)
    (h : PoolInv st) :
    PoolInv (st.packet_handler z c) ∧
    ((st.packet_handler z c).released ++ pendingTokens (st.packet_handler z c)).Perm
      ((st.released ++ pendingTokens st) ++ (if c ≠ 0 then [c] else [])) := by
  by_cases hz : z ∧ c ≠ 0
  · rw [BypassIngestionClient.packet_handler, if_pos (by simpa using hz)]
    by_cases hroom : usub st.pending_write_pos st.pending_read_pos < MAX_PENDING_PACKETS
    · obtain ⟨hok, hinv, hrel, hpend⟩ := try_add_spec st c h hroom
      simp only [hok, if_true]
      refine ⟨hinv, ?_⟩
      rw [hrel, hpend, if_pos hz.2, ← List.append_assoc]
    · have hfull : usub st.pending_write_pos st.pending_read_pos
          ≥ MAX_PENDING_PACKETS := by omega
      have hadd : st.try_add_pending_packet c = (false, st) := by
        rw [BypassIngestionClient.try_add_pending_packet, if_pos hfull]
      simp only [hadd, Bool.false_eq_true, if_false]
      refine ⟨h, ?_⟩
      have hpend2 : pendingTokens { st with released := st.released ++ [c] }
          = pendingTokens st := rfl
      rw [hpend2, if_pos hz.2]
      exact perm_snoc_mid _ _ _
  · rw [BypassIngestionClient.packet_handler, if_neg (by simpa using hz)]
    by_cases hc : c ≠ 0
    · rw [if_pos hc, if_pos hc]
      refine ⟨h, ?_⟩
      have hpend2 : pendingTokens { st with released := st.released ++ [c] }
          = pendingTokens st := rfl
      rw [hpend2]
      exact perm_snoc_mid _ _ _
    · rw [if_neg hc, if_neg hc]
      exact ⟨h, by simp⟩

theorem run_spec :
    ∀ (events : List BypassEvent) (st : BypassIngestionClient), PoolInv st →
      PoolInv (st.run events) ∧
      ((st.run events).released ++ pendingTokens (st.run events)).Perm
        ((st.released ++ pendingTokens st) ++ delivered_tokens events) := by
  intro events
  induction events with
  | nil =>
    intro st h
    exact ⟨h, by simp [BypassIngestionClient.run, delivered_tokens]⟩
  | cons e es ih =>
    intro st h
    cases e with
    | packet z c =>
      obtain ⟨h1, hperm1⟩ := packet_handler_spec st z c h
      obtain ⟨h2, hperm2⟩ := ih (st.packet_handler z c) h1
      refine ⟨h2, ?_⟩
      have hstep : st.run (BypassEvent.packet z c :: es)
          = (st.packet_handler z c).run es := rfl
      rw [hstep]
      refine hperm2.trans ?_
      refine (hperm1.append_right (delivered_tokens es)).trans ?_
      by_cases hc : c ≠ 0
      · rw [if_pos hc]
        have hdel : delivered_tokens (BypassEvent.packet z c :: es)
            = c :: delivered_tokens es := by
          rw [delivered_tokens, if_pos hc]
        rw [hdel]
        simp [List.append_assoc]
      · rw [if_neg hc]
        have hdel : delivered_tokens (BypassEvent.packet z c :: es)
            = delivered_tokens es := by
          rw [delivered_tokens, if_neg hc]
        rw [hdel]
        simp
    | cleanup =>
      obtain ⟨ha, hb, hc⟩ := cleanup_loop_spec
        (usub st.pending_write_pos st.pending_read_pos) st h rfl
      have hstep : st.run (BypassEvent.cleanup :: es)
          = (BypassIngestionClient.cleanup_loop
              (usub st.pending_write_pos st.pending_read_pos) st).run es := rfl
      obtain ⟨h2, hperm2⟩ := ih _ ha
      refine ⟨by rw [hstep]; exact h2, ?_⟩
      rw [hstep]
      refine hperm2.trans ?_
      have hpendnil : pendingTokens (BypassIngestionClient.cleanup_loop
          (usub st.pending_write_pos st.pending_read_pos) st) = [] := by
        rw [pendingTokens, hb]
        simp
      rw [hc, hpendnil]
      have hdel : delivered_tokens (BypassEvent.cleanup :: es)
          = delivered_tokens es := rfl
      rw [hdel]
      simp

/-- **C8.** Over any sequence of packet-handler invocations and cleanup
runs with pairwise-distinct non-null release tokens, followed by a final
cleanup: the pool ends empty, the multiset of tokens passed to the
driver's `release_packet` is exactly the multiset of tokens delivered to
the handler — each delivered token is released exactly once (immediately
when the pool was full at its arrival, otherwise later by a cleanup), and
no other token is ever released. -/
theorem C8_token_release_balance (events : List BypassEvent)
    (hnd : (delivered_tokens events).Nodup) :
    pendingTokens ((BypassIngestionClient.init.run events).cleanup_processed_packets)
      = [] ∧
    ((BypassIngestionClient.init.run events).cleanup_processed_packets).released.Perm
      (delivered_tokens events) ∧
    (∀ t, t ∈ delivered_tokens events →
      ((BypassIngestionClient.init.run events).cleanup_processed_packets).released.count t
        = 1) ∧
    (∀ t, t ∉ delivered_tokens events →
      ((BypassIngestionClient.init.run events).cleanup_processed_packets).released.count t
        = 0) := by
  have hinv0 : PoolInv BypassIngestionClient.init :=
    ⟨by norm_num [BypassIngestionClient.init, U64],
     by norm_num [BypassIngestionClient.init, U64],
     by norm_num [BypassIngestionClient.init, usub, U64, MAX_PENDING_PACKETS]⟩
  obtain ⟨h1, hperm1⟩ := run_spec events BypassIngestionClient.init hinv0
  obtain ⟨ha, hb, hc⟩ := cleanup_loop_spec
    (usub (BypassIngestionClient.init.run events).pending_write_pos
          (BypassIngestionClient.init.run events).pending_read_pos)
    (BypassIngestionClient.init.run events) h1 rfl
  have hcpp : (BypassIngestionClient.init.run events).cleanup_processed_packets
      = BypassIngestionClient.cleanup_loop
          (usub (BypassIngestionClient.init.run events).pending_write_pos
                (BypassIngestionClient.init.run events).pending_read_pos)
          (BypassIngestionClient.init.run events) := rfl
  have hpend0 : pendingTokens BypassIngestionClient.init = [] := by
    norm_num [pendingTokens, BypassIngestionClient.init, usub, U64]
  have hrel0 : BypassIngestionClient.init.released = [] := rfl
  rw [hpend0, hrel0] at hperm1
  simp only [List.append_nil, List.nil_append] at hperm1
  have hpendnil : pendingTokens ((BypassIngestionClient.init.run
      events).cleanup_processed_packets) = [] := by
    rw [hcpp, pendingTokens, hb]
    simp
  have hpermfinal : ((BypassIngestionClient.init.run
      events).cleanup_processed_packets).released.Perm (delivered_tokens events) := by
    rw [hcpp, hc]
    refine List.Perm.trans ?_ hperm1
    simp
  refine ⟨hpendnil, hpermfinal, fun t ht => ?_, fun t ht => ?_⟩
  · rw [hpermfinal.count_eq]
    exact List.count_eq_one_of_mem hnd ht
  · rw [hpermfinal.count_eq]
    exact List.count_eq_zero.mpr ht

/-- Witness for C8: tokens 7 and 8 delivered with zero-copy active, then a
cleanup — both are released exactly once and the pool ends empty. -/
theorem C8_witness :
    ((BypassIngestionClient.init.run
        [BypassEvent.packet true 7, BypassEvent.packet true 8,
         BypassEvent.cleanup]).cleanup_processed_packets).released.count 7 = 1 ∧
    ((BypassIngestionClient.init.run
        [BypassEvent.packet true 7, BypassEvent.packet true 8,
         BypassEvent.cleanup]).cleanup_processed_packets).released.count 9 = 0 ∧
    pendingTokens ((BypassIngestionClient.init.run
        [BypassEvent.packet true 7, BypassEvent.packet true 8,
         BypassEvent.cleanup]).cleanup_processed_packets) = [] := by
  have h := C8_token_release_balance
    [BypassEvent.packet true 7, BypassEvent.packet true 8, BypassEvent.cleanup]
    (by decide)
  exact ⟨h.2.2.1 7 (by decide), h.2.2.2 9 (by decide), h.1⟩

end MDFH
